import Mathlib

/-!
# memslab: the header `imembase.h`

A shallow embedding of the parts of `imembase.h` that carry behaviour: the
rounding macro `IMROUNDUP`, the intrusive circular doubly-linked queue
(`IQUEUE_*`, `iqueue_splice*`, the traversal loops), the slab state macros and
the default page shift.  Pointers are natural numbers, `0` being the null pointer; the memory
holding queue links is a map from addresses to `IQUEUEHEAD` cells, and every
macro is the sequence of field assignments it expands to, each assignment
reading the memory left by the previous one.

The allocator proper (`ikmem_*`, cache construction) is only declared in the
header; where a property needs it, it is modelled from the specification and
marked as such.
-/

namespace Memslab

/-! ## Definitions -/

/-! ### Rounding -/

/-- The macro `IMROUNDSHIFT`. -/
def IMROUNDSHIFT : Nat := 3

/-- The macro `IMROUNDSIZE`, `(1 << IMROUNDSHIFT)`, an `int`. -/
def IMROUNDSIZE : Int := 1 <<< IMROUNDSHIFT

/-- Conversion of an integer value to a `w`-bit `unsigned long`: reduction modulo `2^w`. -/
def toULong (w : Nat) (i : Int) : Nat := (i % ((2 ^ w : Nat) : Int)).toNat

/-- The macro `IMROUNDUP(s)`, `(((s) + IMROUNDSIZE - 1) & ~(IMROUNDSIZE - 1))`, for `s` a
`w`-bit `unsigned long`.  The addition and the subtraction are done in `unsigned long`
(each wraps modulo `2^w`); the mask `~(IMROUNDSIZE - 1)` is computed in `int` and then
converted to `unsigned long`. -/
def IMROUNDUP (w : Nat) (s : Nat) : Nat :=
  toULong w ((toULong w ((s : Int) + IMROUNDSIZE) : Int) - 1) &&& toULong w (~~~ (IMROUNDSIZE - 1))

/-- Modelled from the spec: cache construction lives in the implementation file, which is
not part of the header; the specification computes
`unit_size = round_up(max(obj_size, min_link_size), 8)`, the rounding being `IMROUNDUP`.
Here `p` is the size of a free-list link (a pointer). -/
def unit_size (w obj_size p : Nat) : Nat := IMROUNDUP w (max obj_size p)

/-! ### Page supplier -/

/-- The macro `IDEFAULT_PAGE_SHIFT`. -/
def IDEFAULT_PAGE_SHIFT : Nat := 16

/-- The default page size, `1 << IDEFAULT_PAGE_SHIFT`. -/
def default_page_size : Nat := 1 <<< IDEFAULT_PAGE_SHIFT

/-! ### Queue -/

/-- The record `struct IQUEUEHEAD`: the two links of a queue node. -/
structure IQUEUEHEAD where
  next : Nat
  prev : Nat
deriving DecidableEq

/-- Memory holding queue nodes: the cell stored at each address. -/
abbrev Heap := Nat → IQUEUEHEAD

/-- The assignment `p->next = v`. -/
def setNext (st : Heap) (p v : Nat) : Heap :=
  fun q => if q = p then { st q with next := v } else st q

/-- The assignment `p->prev = v`. -/
def setPrev (st : Heap) (p v : Nat) : Heap :=
  fun q => if q = p then { st q with prev := v } else st q

/-- The macro `IQUEUE_INIT(ptr)`: `(ptr)->next = (ptr), (ptr)->prev = (ptr)`. -/
def IQUEUE_INIT (st : Heap) (ptr : Nat) : Heap :=
  let st := setNext st ptr ptr
  setPrev st ptr ptr

/-- The macro `IQUEUE_ADD(node, head)`:
`(node)->prev = (head), (node)->next = (head)->next,
 (head)->next->prev = (node), (head)->next = (node)`. -/
def IQUEUE_ADD (st : Heap) (node head : Nat) : Heap :=
  let st := setPrev st node head
  let st := setNext st node (st head).next
  let st := setPrev st (st head).next node
  setNext st head node

/-- The macro `IQUEUE_ADD_TAIL(node, head)`:
`(node)->prev = (head)->prev, (node)->next = (head),
 (head)->prev->next = (node), (head)->prev = (node)`. -/
def IQUEUE_ADD_TAIL (st : Heap) (node head : Nat) : Heap :=
  let st := setPrev st node (st head).prev
  let st := setNext st node head
  let st := setNext st (st head).prev node
  setPrev st head node

/-- The macro `IQUEUE_DEL_BETWEEN(p, n)`: `(n)->prev = (p), (p)->next = (n)`. -/
def IQUEUE_DEL_BETWEEN (st : Heap) (p n : Nat) : Heap :=
  let st := setPrev st n p
  setNext st p n

/-- The macro `IQUEUE_DEL(entry)`:
`(entry)->next->prev = (entry)->prev, (entry)->prev->next = (entry)->next,
 (entry)->next = 0, (entry)->prev = 0`. -/
def IQUEUE_DEL (st : Heap) (entry : Nat) : Heap :=
  let st := setPrev st (st entry).next (st entry).prev
  let st := setNext st (st entry).prev (st entry).next
  let st := setNext st entry 0
  setPrev st entry 0

/-- The macro `IQUEUE_DEL_INIT(entry)`: `IQUEUE_DEL(entry); IQUEUE_INIT(entry);`. -/
def IQUEUE_DEL_INIT (st : Heap) (entry : Nat) : Heap :=
  IQUEUE_INIT (IQUEUE_DEL st entry) entry

/-- The macro `IQUEUE_IS_EMPTY(entry)`: `((entry) == (entry)->next)`. -/
def IQUEUE_IS_EMPTY (st : Heap) (entry : Nat) : Bool :=
  entry == (st entry).next

/-- The macro `__iqueue_splice(list, head)`: the locals `first`, `last` and `at` are read
first, then `(first)->prev = (head), (head)->next = (first);
(last)->next = (at), (at)->prev = (last);`. -/
def __iqueue_splice (st : Heap) (list head : Nat) : Heap :=
  let first := (st list).next
  let last := (st list).prev
  let at_ := (st head).next
  let st := setPrev st first head
  let st := setNext st head first
  let st := setNext st last at_
  setPrev st at_ last

/-- The macro `iqueue_splice(list, head)`:
`if (!iqueue_is_empty(list)) __iqueue_splice(list, head);`. -/
def iqueue_splice (st : Heap) (list head : Nat) : Heap :=
  if !IQUEUE_IS_EMPTY st list then __iqueue_splice st list head else st

/-- The macro `iqueue_splice_init(list, head)`:
`iqueue_splice(list, head); iqueue_init(list);`. -/
def iqueue_splice_init (st : Heap) (list head : Nat) : Heap :=
  IQUEUE_INIT (iqueue_splice st list head) list

/-- A doubly-linked segment: following `next` from `a` runs through the nodes of `l` in
order and then reaches `h`, and `prev` of every node reached is the node it was reached
from. -/
def linked (st : Heap) : Nat → List Nat → Nat → Prop
  | a, [], h => (st a).next = h ∧ (st h).prev = a
  | a, b :: l, h => (st a).next = b ∧ (st b).prev = a ∧ linked st b l h

instance linkedDecidable (st : Heap) : ∀ a l h, Decidable (linked st a l h)
  | a, [], h => inferInstanceAs (Decidable ((st a).next = h ∧ (st h).prev = a))
  | a, b :: l, h =>
    have := linkedDecidable st b l h
    inferInstanceAs (Decidable ((st a).next = b ∧ (st b).prev = a ∧ linked st b l h))

/-- The form of well-formedness the proofs work with, equivalent to `wellFormed` below:
the head and the elements are pairwise different nodes, and the doubly-linked segment
that starts at `h` runs through `l` and closes at `h` again. -/
def isList (st : Heap) (h : Nat) (l : List Nat) : Prop :=
  (h :: l).Nodup ∧ linked st h l h

instance isListDecidable (st : Heap) (h : Nat) (l : List Nat) : Decidable (isList st h l) :=
  inferInstanceAs (Decidable ((h :: l).Nodup ∧ linked st h l h))

/-- Following `next` from `a` runs through the nodes of `l` in order and then reaches
`h`. -/
def nextPath (st : Heap) : Nat → List Nat → Nat → Prop
  | a, [], h => (st a).next = h
  | a, b :: l, h => (st a).next = b ∧ nextPath st b l h

instance nextPathDecidable (st : Heap) : ∀ a l h, Decidable (nextPath st a l h)
  | a, [], h => inferInstanceAs (Decidable ((st a).next = h))
  | a, b :: l, h =>
    have := nextPathDecidable st b l h
    inferInstanceAs (Decidable ((st a).next = b ∧ nextPath st b l h))

/-- A well-formed circular list with head `h` holding the elements `l` in next-order:
the nodes reached from the head by `next` are those of `l`, in order, and then the head
again for the first time, and every node `x` on this cycle has `x->next->prev == x` and
`x->prev->next == x`. -/
def wellFormed (st : Heap) (h : Nat) (l : List Nat) : Prop :=
  h ∉ l ∧ nextPath st h l h ∧
    ∀ x ∈ h :: l, (st (st x).next).prev = x ∧ (st (st x).prev).next = x

instance wellFormedDecidable (st : Heap) (h : Nat) (l : List Nat) :
    Decidable (wellFormed st h l) :=
  inferInstanceAs (Decidable (h ∉ l ∧ nextPath st h l h ∧
    ∀ x ∈ h :: l, (st (st x).next).prev = x ∧ (st (st x).prev).next = x))

/-- The macros `ICONTAINEROF(ptr, type, member)` and `IOFFSETOF(TYPE, MEMBER)`:
`(type*)(((char*)((type*)ptr)) - IOFFSETOF(type, member))`.  The layout of `type` is not
modelled: `off` is the value of `IOFFSETOF(type, member)`.  Addresses of enclosing
structures are integers, so that the subtraction is exact. -/
def ICONTAINEROF (ptr : Nat) (off : Nat) : Int := (ptr : Int) - (off : Int)

/-- The macro `IQUEUE_ENTRY(ptr, type, member)`: `ICONTAINEROF(ptr, type, member)`. -/
def IQUEUE_ENTRY (ptr : Nat) (off : Nat) : Int := ICONTAINEROF ptr off

/-- The address `&((iterator)->MEMBER)` of the link embedded at offset `off` in the
structure at `iterator`. -/
def memberAddr (iterator : Int) (off : Nat) : Int := iterator + (off : Int)

/-- The loop of `iqueue_foreach_entry(pos, head)` from the current value of `pos`:
`for (...; (pos) != (head); (pos) = (pos)->next)`.  The body acts on a state of its own
and writes no link.  `fuel` bounds the number of times the loop condition is tested; the
result is `none` when it runs out. -/
def foreach_entry_loop {σ : Type} (st : Heap) (head : Nat) (body : Nat → σ → σ) :
    Nat → Nat → σ → Option σ
  | 0, _, _ => none
  | fuel + 1, pos, s =>
    if pos = head then some s
    else foreach_entry_loop st head body fuel (st pos).next (body pos s)

/-- The macro `iqueue_foreach_entry(pos, head)`:
`for ((pos) = (head)->next; (pos) != (head); (pos) = (pos)->next)`. -/
def iqueue_foreach_entry {σ : Type} (st : Heap) (head : Nat) (body : Nat → σ → σ)
    (fuel : Nat) (s : σ) : Option σ :=
  foreach_entry_loop st head body fuel (st head).next s

/-- The loop of `IQUEUE_FOREACH(iterator, head, TYPE, MEMBER)` from the current value of
`iterator`: the condition is `&((iterator)->MEMBER) != (head)` and the step is
`(iterator) = iqueue_entry((iterator)->MEMBER.next, TYPE, MEMBER)`. -/
def FOREACH_loop {σ : Type} (st : Heap) (head : Nat) (off : Nat) (body : Int → σ → σ) :
    Nat → Int → σ → Option σ
  | 0, _, _ => none
  | fuel + 1, iterator, s =>
    if memberAddr iterator off = (head : Int) then some s
    else FOREACH_loop st head off body fuel
      (IQUEUE_ENTRY (st (memberAddr iterator off).toNat).next off) (body iterator s)

/-- The macro `IQUEUE_FOREACH(iterator, head, TYPE, MEMBER)`, which starts at
`iqueue_entry((head)->next, TYPE, MEMBER)`. -/
def IQUEUE_FOREACH {σ : Type} (st : Heap) (head : Nat) (off : Nat) (body : Int → σ → σ)
    (fuel : Nat) (s : σ) : Option σ :=
  FOREACH_loop st head off body fuel (IQUEUE_ENTRY (st head).next off) s

/-- The macro `iqueue_foreach(iterator, head, TYPE, MEMBER)`:
`IQUEUE_FOREACH(iterator, head, TYPE, MEMBER)`. -/
def iqueue_foreach {σ : Type} (st : Heap) (head : Nat) (off : Nat) (body : Int → σ → σ)
    (fuel : Nat) (s : σ) : Option σ :=
  IQUEUE_FOREACH st head off body fuel s

/-- One insertion into a list: at the front with `IQUEUE_ADD` or at the back with
`IQUEUE_ADD_TAIL`. -/
inductive Insertion where
  | add (node : Nat)
  | add_tail (node : Nat)
deriving DecidableEq

/-- The node an insertion adds. -/
def Insertion.node : Insertion → Nat
  | Insertion.add n => n
  | Insertion.add_tail n => n

/-- Running one insertion on the list with head `h`. -/
def insertOne (h : Nat) (st : Heap) : Insertion → Heap
  | Insertion.add n => IQUEUE_ADD st n h
  | Insertion.add_tail n => IQUEUE_ADD_TAIL st n h

/-- Running a sequence of insertions on the list with head `h`, first to last. -/
def insertAll (st : Heap) (h : Nat) (ins : List Insertion) : Heap :=
  ins.foldl (insertOne h) st

/-- The elements, in next-order, that a sequence of insertions builds from the elements
`l`: `IQUEUE_ADD` puts its node first, `IQUEUE_ADD_TAIL` last. -/
def insertedList (l : List Nat) (ins : List Insertion) : List Nat :=
  ins.foldl (fun acc i =>
    match i with
    | Insertion.add n => n :: acc
    | Insertion.add_tail n => acc ++ [n]) l

/-- Removing the given entries one after the other with `IQUEUE_DEL`. -/
def deleteAll (st : Heap) (es : List Nat) : Heap :=
  es.foldl IQUEUE_DEL st

/-! ### Slab -/

/-- The record `struct IMEMSLAB`.  Pointers are addresses, `0` is the null pointer;
`memsize` and `inuse` are `long`. -/
structure IMEMSLAB where
  queue : IQUEUEHEAD
  coloroff : Nat
  membase : Nat
  memsize : Int
  inuse : Int
  bufctl : Nat
  extra : Nat

/-- The macro `IMEMSLAB_ISFULL(s)`: `((s)->bufctl == 0)`. -/
def IMEMSLAB_ISFULL (s : IMEMSLAB) : Bool := s.bufctl == 0

/-- The macro `IMEMSLAB_ISEMPTY(s)`: `((s)->inuse == 0)`. -/
def IMEMSLAB_ISEMPTY (s : IMEMSLAB) : Bool := s.inuse == 0

/-- The chain of free slots that starts at `p` contains exactly `n` slots: `mem` gives the
link stored in the first word of each slot, following the links from `p` passes through
`n` slots, none of them the null pointer, and then reaches the null pointer. -/
def freeChain (mem : Nat → Nat) : Nat → Nat → Bool
  | 0, p => p == 0
  | n + 1, p => p != 0 && freeChain mem n (mem p)

/-- The free-list invariant of a slab in a cache with `num` objects per slab:
`0 ≤ inuse ≤ num` and the chain of free slots starting at `bufctl` contains exactly
`num - inuse` slots. -/
def freeListInv (mem : Nat → Nat) (num : Nat) (s : IMEMSLAB) : Prop :=
  0 ≤ s.inuse ∧ s.inuse ≤ (num : Int) ∧
    freeChain mem ((num : Int) - s.inuse).toNat s.bufctl = true

instance freeListInvDecidable (mem : Nat → Nat) (num : Nat) (s : IMEMSLAB) :
    Decidable (freeListInv mem num s) :=
  inferInstanceAs (Decidable (0 ≤ s.inuse ∧ s.inuse ≤ (num : Int) ∧
    freeChain mem ((num : Int) - s.inuse).toNat s.bufctl = true))

/-! ### The kmem facade -/

/-- Modelled from the spec: the owner recorded in the pointer→cache map, which belongs to
the implementation file and is not part of the header.  An entry holds the owning
size-class cache, known by its `obj_size`, or the LARGE pseudo-cache together with the
stored size. -/
inductive Owner where
  | cache (obj_size : Nat)
  | large (size : Nat)
deriving DecidableEq

/-- Modelled from the spec: the process-wide state of the facade, kept in the
implementation file and not part of the header: the page size, the choice of supplier,
the sorted array of size classes (each a cache, known by its `obj_size`) and the
pointer→cache map keyed by page base. -/
structure Kmem where
  page_size : Nat
  use_host_malloc : Bool
  classes : List Nat
  owner : Nat → Option Owner

/-- Modelled from the spec: the memory sources beneath the facade, whose code is not part
of the header.  `cache_alloc c` is the object handed out by the cache of object size
`c`, `page_alloc n` the block the page supplier returns for a request of `n` bytes; both
are `0`, the null pointer, when memory is exhausted. -/
structure Supply where
  cache_alloc : Nat → Nat
  page_alloc : Nat → Nat

/-- Modelled from the spec: the default size classes of `ikmem_init`, which the header
only declares: 8, 16, 32, ..., 16384. -/
def default_sizes : List Nat :=
  [8, 16, 32, 64, 128, 256, 512, 1024, 2048, 4096, 8192, 16384]

/-- Modelled from the spec: `ikmem_init(page_shift, pg_malloc, sz)`, declared in the header
and defined in the implementation file.  The page size is `1 << page_shift`, and
`pg_malloc` chooses the supplier.  It builds one cache per size in `sz` (the defaults
when `sz` is null) that is below `page_size / 2` and stores them in an array sorted by
size; objects of `page_size / 2` bytes or more get no cache, they go to the large
path. -/
def ikmem_init (page_shift : Nat) (pg_malloc : Int) (sz : Option (List Nat)) : Kmem :=
  { page_size := 1 <<< page_shift
    use_host_malloc := pg_malloc != 0
    classes :=
      ((sz.getD default_sizes).filter
        (fun c => decide (c < (1 <<< page_shift) / 2))).insertionSort (fun a b => a ≤ b)
    owner := fun _ => none }

/-- Modelled from the spec: the largest size class of the table (`0` for an empty
table); the table belongs to the implementation file. -/
def largest_class (classes : List Nat) : Nat := classes.foldr max 0

/-- Modelled from the spec: the size-class lookup of the implementation file, "round
`size` up to the nearest class": the first entry of the sorted array whose size is at
least `size`. -/
def size_class (classes : List Nat) (size : Nat) : Option Nat :=
  classes.find? (fun c => decide (size ≤ c))

/-- Modelled from the spec: the number of bytes the large path of the implementation
file asks of the supplier, `ceil(size / page_size) × page_size`, as a `w`-bit
`unsigned long`.  The number of pages never exceeds `size`; the product wraps modulo
`2^w`. -/
def large_bytes (w page_size size : Nat) : Nat :=
  ((size + page_size - 1) / page_size * page_size) % 2 ^ w

/-- Modelled from the spec: the base of the page an address lies on, the key of the
pointer→cache map of the implementation file. -/
def page_base (page_size p : Nat) : Nat := p / page_size * page_size

/-- Modelled from the spec: recording an owner for the page of `p` in the
pointer→cache map of the implementation file. -/
def record_owner (k : Kmem) (p : Nat) (o : Owner) : Kmem :=
  { k with owner := fun b => if b = page_base k.page_size p then some o else k.owner b }

/-- Modelled from the spec: `ikmem_malloc(size)`, declared in the header and defined in
the implementation file, with `unsigned long` of `w` bits.  A request above the largest
class, or of `page_size / 2` bytes or more, takes the large path: the supplier is asked
for `ceil(size / page_size) × page_size` bytes and the block is recorded with owner
LARGE and that size.  Any other request is served by `cache_alloc` on the class the
size rounds up to, and the page of the object is recorded with that cache.  The result
is the null pointer when no memory is handed out. -/
def ikmem_malloc (w : Nat) (k : Kmem) (m : Supply) (size : Nat) : Nat × Kmem :=
  if largest_class k.classes < size ∨ k.page_size / 2 ≤ size then
    let bytes := large_bytes w k.page_size size
    let p := m.page_alloc bytes
    if p = 0 then (0, k) else (p, record_owner k p (Owner.large bytes))
  else
    match size_class k.classes size with
    | none => (0, k)
    | some c =>
      let p := m.cache_alloc c
      if p = 0 then (0, k) else (p, record_owner k p (Owner.cache c))

/-- Modelled from the spec: `ikmem_ptr_size(ptr)`, declared in the header and defined in
the implementation file: the class size of the owning cache, or the recorded large
size, returned as a `w`-bit `unsigned long`; `0` for an address with no recorded
owner. -/
def ikmem_ptr_size (w : Nat) (k : Kmem) (p : Nat) : Nat :=
  (match k.owner (page_base k.page_size p) with
    | some (Owner.cache c) => c
    | some (Owner.large n) => n
    | none => 0) % 2 ^ w

/-! ### Examples -/

/-- A slab with three slots, one in use, and the free chain `100 → 200 → nil`. -/
def slab_example : IMEMSLAB :=
  { queue := ⟨0, 0⟩, coloroff := 0, membase := 100, memsize := 300, inuse := 1,
    bufctl := 100, extra := 0 }

/-- The links stored in the free slots of `slab_example`. -/
def mem_example : Nat → Nat := fun p => if p = 100 then 200 else 0

/-- A memory holding two lists: head `1` with the elements `11, 12` and head `2` with the
element `21`; every other cell is zero. -/
def heap_example : Heap := fun p =>
  if p = 1 then ⟨11, 12⟩ else if p = 11 then ⟨12, 1⟩ else if p = 12 then ⟨1, 11⟩
  else if p = 2 then ⟨21, 21⟩ else if p = 21 then ⟨2, 2⟩ else ⟨0, 0⟩

/-- Memory sources in which only the cache of object size 32 has memory: it hands out the
object at `2097216`; every other cache and the page supplier return the null pointer. -/
def supply_one_class : Supply :=
  { cache_alloc := fun c => if c = 32 then 2097216 else 0, page_alloc := fun _ => 0 }


/-! ## Theorems -/

/-! ### Rounding -/

theorem IMROUNDSIZE_eq : IMROUNDSIZE = 8 := by decide

theorem eight_le_two_pow (w : Nat) (hw : 3 ≤ w) : 8 ≤ 2 ^ w := by
  have : 2 ^ 3 ≤ 2 ^ w := Nat.pow_le_pow_right (by decide) hw
  simpa using this

/-- Masking a `w`-bit value with `2^w - 8` clears its three low bits. -/
theorem land_mask (w x : Nat) (hx : x < 2 ^ w) (hw : 3 ≤ w) :
    x &&& (2 ^ w - 8) = 8 * (x / 8) := by
  apply Nat.eq_of_testBit_eq
  intro i
  have h8 : 2 ^ w - 8 = 2 ^ 3 * (2 ^ (w - 3) - 1) := by
    have : 2 ^ w = 2 ^ 3 * 2 ^ (w - 3) := by rw [← pow_add]; congr 1; omega
    rw [this, Nat.mul_sub, Nat.mul_one]; rfl
  rw [Nat.testBit_land, h8, show (8 : Nat) = 2 ^ 3 from rfl, Nat.testBit_mul_pow_two,
    Nat.testBit_mul_pow_two, Nat.testBit_two_pow_sub_one, ← Nat.shiftRight_eq_div_pow,
    Nat.testBit_shiftRight]
  by_cases h : 3 ≤ i
  · have e : 3 + (i - 3) = i := by omega
    by_cases hi : i < w
    · have : i - 3 < w - 3 := by omega
      simp [h, e, this]
    · have hf : x.testBit i = false :=
        Nat.testBit_lt_two_pow (lt_of_lt_of_le hx (Nat.pow_le_pow_right (by decide) (by omega)))
      simp [h, e, hf]
  · simp [h]

/-- The mask of `IMROUNDUP` as an `unsigned long`. -/
theorem toULong_mask (w : Nat) (hw : 3 ≤ w) :
    toULong w (~~~ (IMROUNDSIZE - 1)) = 2 ^ w - 8 := by
  have hn := eight_le_two_pow w hw
  have e : (~~~ (IMROUNDSIZE - 1) : Int) = -8 := by decide
  unfold toULong
  generalize 2 ^ w = P at hn ⊢
  rw [e, ← Int.add_emod_self, Int.emod_eq_of_lt (by omega) (by omega)]
  omega

/-- The sum `s + IMROUNDSIZE - 1` does not wrap as long as `s + 8 ≤ 2^w`. -/
theorem toULong_add_sub (w s : Nat) (hw : 3 ≤ w) (hs : s + 8 ≤ 2 ^ w) :
    toULong w ((toULong w ((s : Int) + 8) : Int) - 1) = s + 7 := by
  have hn := eight_le_two_pow w hw
  unfold toULong
  generalize 2 ^ w = P at hn hs ⊢
  rcases Nat.lt_or_ge (s + 8) P with h | h
  · rw [Int.emod_eq_of_lt (a := (s : Int) + 8) (by omega) (by omega)]
    have : (((s : Int) + 8).toNat : Int) - 1 = s + 7 := by omega
    rw [this, Int.emod_eq_of_lt (by omega) (by omega)]
    omega
  · have e : (s : Int) + 8 = (P : Int) := by omega
    rw [e, Int.emod_self]
    simp only [Int.toNat_zero, Nat.cast_zero, zero_sub]
    rw [← Int.add_emod_self, Int.emod_eq_of_lt (by omega) (by omega)]
    omega

theorem IMROUNDUP_eq (w s : Nat) (hw : 3 ≤ w) (hs : s + 8 ≤ 2 ^ w) :
    IMROUNDUP w s = 8 * ((s + 7) / 8) := by
  unfold IMROUNDUP
  rw [toULong_mask w hw, IMROUNDSIZE_eq, toULong_add_sub w s hw hs]
  exact land_mask w (s + 7) (by omega) hw

/-- The closed form also holds for the degenerate widths, where only `s = 0` passes the
bound. -/
theorem IMROUNDUP_eq_of_le (w s : Nat) (hs : s ≤ 2 ^ w - 8) :
    IMROUNDUP w s = 8 * ((s + 7) / 8) := by
  rcases Nat.lt_or_ge w 3 with hw | hw
  · have h0 : s = 0 := by
      have : 2 ^ w ≤ 2 ^ 2 := Nat.pow_le_pow_right (by decide) (by omega)
      omega
    subst h0
    interval_cases w <;> decide
  · have := eight_le_two_pow w hw
    exact IMROUNDUP_eq w s hw (by omega)

theorem ceil_div_eight (s : Nat) : ⌈(s : ℚ) / 8⌉₊ = (s + 7) / 8 := by
  apply le_antisymm
  · rw [Nat.ceil_le, div_le_iff₀ (by norm_num)]
    have : s ≤ (s + 7) / 8 * 8 := by omega
    exact_mod_cast this
  · have h := Nat.le_ceil ((s : ℚ) / 8)
    rw [div_le_iff₀ (by norm_num)] at h
    have h2 : s ≤ ⌈(s : ℚ) / 8⌉₊ * 8 := by exact_mod_cast h
    omega

/-- C1: for every size `s` of a `w`-bit `unsigned long` with `s ≤ 2^w - 8`, `IMROUNDUP(s)`
is `8 * ceil(s / 8)`, the least multiple of 8 that is at least `s`; in particular
`s ≤ IMROUNDUP(s) < s + 8`, and `IMROUNDUP(s) = s` when `s` is a multiple of 8. -/
theorem IMROUNDUP_least_multiple (w s : Nat) (hs : s ≤ 2 ^ w - 8) :
    IMROUNDUP w s = 8 * ⌈(s : ℚ) / 8⌉₊ ∧
    (8 ∣ IMROUNDUP w s ∧ s ≤ IMROUNDUP w s ∧ ∀ m, 8 ∣ m → s ≤ m → IMROUNDUP w s ≤ m) ∧
    (s ≤ IMROUNDUP w s ∧ IMROUNDUP w s < s + 8) ∧
    (8 ∣ s → IMROUNDUP w s = s) := by
  rw [ceil_div_eight, IMROUNDUP_eq_of_le w s hs]
  refine ⟨rfl, ⟨Dvd.intro _ rfl, by omega, ?_⟩, ⟨by omega, by omega⟩, ?_⟩
  · rintro m ⟨k, rfl⟩ hm
    omega
  · rintro ⟨k, rfl⟩
    omega

theorem IMROUNDUP_least_multiple_witness :
    (13 : Nat) ≤ 2 ^ 64 - 8 ∧ IMROUNDUP 64 13 = 16 ∧ IMROUNDUP 64 16 = 16 := by
  have h13 : (13 : Nat) ≤ 2 ^ 64 - 8 := by norm_num
  have h16 : (16 : Nat) ≤ 2 ^ 64 - 8 := by norm_num
  have a := IMROUNDUP_least_multiple 64 13 h13
  have b := IMROUNDUP_least_multiple 64 16 h16
  refine ⟨h13, ?_, b.2.2.2 (by decide)⟩
  have h1 := a.2.1.2.2 16 (by decide) (by decide)
  have h2 := a.2.1.1
  have h3 := a.2.1.2.1
  omega

/-- C4: for every object size and every link size `p ≥ 1` such that `max(obj_size, p) + 7`
does not overflow the `w`-bit word, `unit_size = IMROUNDUP(max(obj_size, p))` is a
multiple of 8, at least 8, at least `p` and at least `obj_size`: a free-list link fits
inside one object slot. -/
theorem unit_size_bounds (w obj_size p : Nat) (hp : 1 ≤ p)
    (hov : max obj_size p + 7 < 2 ^ w) :
    unit_size w obj_size p = IMROUNDUP w (max obj_size p) ∧
    8 ∣ unit_size w obj_size p ∧ 8 ≤ unit_size w obj_size p ∧
    p ≤ unit_size w obj_size p ∧ obj_size ≤ unit_size w obj_size p := by
  have h := IMROUNDUP_eq_of_le w (max obj_size p) (by omega)
  have h1 : p ≤ max obj_size p := le_max_right _ _
  have h2 : obj_size ≤ max obj_size p := le_max_left _ _
  unfold unit_size
  rw [h]
  generalize max obj_size p = m at h1 h2 hov
  exact ⟨rfl, Dvd.intro _ rfl, by omega, by omega, by omega⟩

theorem unit_size_bounds_witness :
    (1 : Nat) ≤ 8 ∧ max 20 8 + 7 < 2 ^ 64 ∧ unit_size 64 20 8 = 24 := by
  have hov : max 20 8 + 7 < 2 ^ 64 := by norm_num
  have h := unit_size_bounds 64 20 8 (by decide) hov
  refine ⟨by decide, hov, ?_⟩
  rw [h.1]
  decide

/-! ### Page supplier -/

/-- C8: the default page size `1 << IDEFAULT_PAGE_SHIFT` is 65536, a power of two, and at
least 4096. -/
theorem default_page_size_eq :
    default_page_size = 1 <<< IDEFAULT_PAGE_SHIFT ∧ default_page_size = 65536 ∧
    default_page_size = 2 ^ 16 ∧ (∃ k, default_page_size = 2 ^ k) ∧
    4096 ≤ default_page_size := by
  refine ⟨rfl, by decide, by decide, ⟨16, by decide⟩, by decide⟩

/-! ### Slab -/

theorem freeChain_zero_iff (mem : Nat → Nat) (n p : Nat) (h : freeChain mem n p = true) :
    p = 0 ↔ n = 0 := by
  cases n with
  | zero => simpa [freeChain] using h
  | succ n =>
    simp only [freeChain, Bool.and_eq_true, bne_iff_ne, ne_eq] at h
    simp [h.1]

/-- C2: for every slab satisfying the free-list invariant, `IMEMSLAB_ISFULL(s)` holds if
and only if `inuse == num`, and `IMEMSLAB_ISEMPTY(s)` holds if and only if
`inuse == 0`. -/
theorem slab_full_empty_iff (mem : Nat → Nat) (num : Nat) (s : IMEMSLAB)
    (hinv : freeListInv mem num s) :
    (IMEMSLAB_ISFULL s = true ↔ s.inuse = (num : Int)) ∧
    (IMEMSLAB_ISEMPTY s = true ↔ s.inuse = 0) := by
  obtain ⟨h0, hle, hc⟩ := hinv
  have hz := freeChain_zero_iff mem _ _ hc
  refine ⟨?_, by simp [IMEMSLAB_ISEMPTY]⟩
  simp only [IMEMSLAB_ISFULL, beq_iff_eq]
  rw [hz]
  omega

theorem slab_full_empty_iff_witness :
    freeListInv mem_example 3 slab_example ∧
    (IMEMSLAB_ISFULL slab_example = true ↔ slab_example.inuse = ((3 : Nat) : Int)) ∧
    (IMEMSLAB_ISEMPTY slab_example = true ↔ slab_example.inuse = 0) :=
  ⟨by decide, slab_full_empty_iff mem_example 3 slab_example (by decide)⟩

/-- C5: for every slab of a cache with `num ≥ 1` objects per slab that satisfies the
free-list invariant, `IMEMSLAB_ISFULL(s)` and `IMEMSLAB_ISEMPTY(s)` never hold together,
and exactly one of the three states holds: full (`inuse == num`), empty (`inuse == 0`),
or neither macro holds (`0 < inuse < num`). -/
theorem slab_state_exclusive (mem : Nat → Nat) (num : Nat) (s : IMEMSLAB)
    (hnum : 1 ≤ num) (hinv : freeListInv mem num s) :
    ¬ (IMEMSLAB_ISFULL s = true ∧ IMEMSLAB_ISEMPTY s = true) ∧
    ((IMEMSLAB_ISFULL s = true ∧ IMEMSLAB_ISEMPTY s = false ∧ s.inuse = (num : Int)) ∨
     (IMEMSLAB_ISFULL s = false ∧ IMEMSLAB_ISEMPTY s = true ∧ s.inuse = 0) ∨
     (IMEMSLAB_ISFULL s = false ∧ IMEMSLAB_ISEMPTY s = false ∧
        0 < s.inuse ∧ s.inuse < (num : Int))) := by
  obtain ⟨h0, hle, hc⟩ := hinv
  have hz := freeChain_zero_iff mem _ _ hc
  have hfull : IMEMSLAB_ISFULL s = true ↔ s.inuse = (num : Int) := by
    simp only [IMEMSLAB_ISFULL, beq_iff_eq]
    rw [hz]
    omega
  have hempty : IMEMSLAB_ISEMPTY s = true ↔ s.inuse = 0 := by simp [IMEMSLAB_ISEMPTY]
  have hnum2 : (1 : Int) ≤ (num : Int) := by exact_mod_cast hnum
  rcases Bool.eq_false_or_eq_true (IMEMSLAB_ISFULL s) with hF | hF <;>
    rcases Bool.eq_false_or_eq_true (IMEMSLAB_ISEMPTY s) with hE | hE
  · exact absurd ((hfull.1 hF).symm.trans (hempty.1 hE)) (by omega)
  · refine ⟨by simp [hE], Or.inl ⟨hF, hE, hfull.1 hF⟩⟩
  · refine ⟨by simp [hF], Or.inr (Or.inl ⟨hF, hE, hempty.1 hE⟩)⟩
  · refine ⟨by simp [hF], Or.inr (Or.inr ⟨hF, hE, ?_, ?_⟩)⟩
    · have : ¬ s.inuse = 0 := fun e => by rw [hempty.2 e] at hE; exact absurd hE (by decide)
      omega
    · have : ¬ s.inuse = (num : Int) := fun e => by
        rw [hfull.2 e] at hF; exact absurd hF (by decide)
      omega

theorem slab_state_exclusive_witness :
    1 ≤ 3 ∧ freeListInv mem_example 3 slab_example ∧
    ¬ (IMEMSLAB_ISFULL slab_example = true ∧ IMEMSLAB_ISEMPTY slab_example = true) :=
  ⟨by decide, by decide,
    (slab_state_exclusive mem_example 3 slab_example (by decide) (by decide)).1⟩

/-! ### Queue -/

theorem setNext_next (st : Heap) (p v x : Nat) :
    ((setNext st p v) x).next = if x = p then v else (st x).next := by
  unfold setNext; split_ifs <;> rfl

theorem setNext_prev (st : Heap) (p v x : Nat) :
    ((setNext st p v) x).prev = (st x).prev := by
  unfold setNext; split_ifs <;> rfl

theorem setPrev_prev (st : Heap) (p v x : Nat) :
    ((setPrev st p v) x).prev = if x = p then v else (st x).prev := by
  unfold setPrev; split_ifs <;> rfl

theorem setPrev_next (st : Heap) (p v x : Nat) :
    ((setPrev st p v) x).next = (st x).next := by
  unfold setPrev; split_ifs <;> rfl

theorem linked_frame {st st2 : Heap} : ∀ {a : Nat} {l : List Nat} {h : Nat},
    linked st a l h →
    (∀ x ∈ a :: l, (st2 x).next = (st x).next) →
    (∀ x ∈ l ++ [h], (st2 x).prev = (st x).prev) →
    linked st2 a l h
  | a, [], h, hl, hn, hp => by
    simp only [linked] at hl ⊢
    rw [hn a (by simp), hp h (by simp)]
    exact hl
  | a, b :: l, h, hl, hn, hp => by
    simp only [linked] at hl ⊢
    refine ⟨by rw [hn a (by simp)]; exact hl.1, by rw [hp b (by simp)]; exact hl.2.1, ?_⟩
    exact linked_frame hl.2.2 (fun x hx => hn x (List.mem_cons_of_mem _ hx))
      (fun x hx => hp x (by simpa using Or.inr (by simpa using hx)))

theorem linked_append {st : Heap} : ∀ {a : Nat} {l1 : List Nat} {b : Nat} {l2 : List Nat} {h : Nat},
    linked st a (l1 ++ b :: l2) h ↔ linked st a l1 b ∧ linked st b l2 h
  | a, [], b, l2, h => by simp [linked, and_assoc]
  | a, c :: l1, b, l2, h => by
    have ih := @linked_append st c l1 b l2 h
    show linked st a (c :: (l1 ++ b :: l2)) h ↔ linked st a (c :: l1) b ∧ linked st b l2 h
    simp only [linked, and_assoc, ih]

theorem linked_prev_mem {st : Heap} : ∀ {a : Nat} {l : List Nat} {h : Nat},
    linked st a l h → (st h).prev ∈ a :: l
  | a, [], h, hl => by simp [hl.2]
  | a, b :: l, h, hl => List.mem_cons_of_mem _ (linked_prev_mem hl.2.2)

theorem linked_next_mem {st : Heap} {a : Nat} {l : List Nat} {h : Nat}
    (hl : linked st a l h) : (st a).next ∈ l ++ [h] := by
  cases l with
  | nil => simp [hl.1]
  | cons b l => simp [hl.1]

/-- Redirect the end of a segment from `h` to `h2`. -/
theorem linked_retarget {st st2 : Heap} {h h2 : Nat} : ∀ {a : Nat} {l : List Nat},
    linked st a l h → (a :: l).Nodup →
    (∀ x ∈ a :: l, x ≠ (st h).prev → (st2 x).next = (st x).next) →
    (∀ x ∈ l, (st2 x).prev = (st x).prev) →
    (st2 (st h).prev).next = h2 → (st2 h2).prev = (st h).prev →
    linked st2 a l h2
  | a, [], hl, _, _, _, hz, hz2 => by
    simp only [linked] at hl ⊢
    rw [hl.2] at hz hz2
    exact ⟨hz, hz2⟩
  | a, b :: l, hl, hnd, hn, hp, hz, hz2 => by
    simp only [linked] at hl ⊢
    have hmem := linked_prev_mem hl.2.2
    have hne : a ≠ (st h).prev := by
      intro e
      rw [← e] at hmem
      exact (List.nodup_cons.1 hnd).1 hmem
    refine ⟨by rw [hn a (by simp) hne]; exact hl.1, by rw [hp b (by simp)]; exact hl.2.1, ?_⟩
    exact linked_retarget hl.2.2 (List.nodup_cons.1 hnd).2
      (fun x hx => hn x (List.mem_cons_of_mem _ hx))
      (fun x hx => hp x (List.mem_cons_of_mem _ hx)) hz hz2

theorem isList_frame {st st2 : Heap} {h : Nat} {l : List Nat} (hl : isList st h l)
    (hf : ∀ x ∈ h :: l, st2 x = st x) : isList st2 h l := by
  refine ⟨hl.1, linked_frame hl.2 (fun x hx => by rw [hf x hx]) (fun x hx => ?_)⟩
  rw [hf x (by simp at hx ⊢; tauto)]

theorem ADD_next (st : Heap) (n h x : Nat) (hnh : n ≠ h) :
    ((IQUEUE_ADD st n h) x).next =
      if x = h then n else if x = n then (st h).next else (st x).next := by
  have hhn : h ≠ n := fun e => hnh e.symm
  simp only [IQUEUE_ADD, setNext, setPrev]
  split_ifs <;> simp_all

theorem ADD_prev (st : Heap) (n h x : Nat) (hnh : n ≠ h) :
    ((IQUEUE_ADD st n h) x).prev =
      if x = (st h).next then n else if x = n then h else (st x).prev := by
  have hhn : h ≠ n := fun e => hnh e.symm
  simp only [IQUEUE_ADD, setNext, setPrev]
  split_ifs <;> simp_all

theorem isList_ADD {st : Heap} {h n : Nat} {l : List Nat} (hl : isList st h l)
    (hn : n ∉ h :: l) : isList (IQUEUE_ADD st n h) h (n :: l) := by
  obtain ⟨hnd, hlk⟩ := hl
  have hnh : n ≠ h := fun e => hn (by simp [e])
  have hnl : n ∉ l := fun e => hn (List.mem_cons_of_mem _ e)
  have hf : (st h).next ≠ n := by
    intro e
    have := linked_next_mem hlk
    rw [e] at this
    simp at this
    tauto
  have hnd2 : (h :: n :: l).Nodup := by
    simp only [List.nodup_cons, List.mem_cons] at hnd ⊢
    refine ⟨?_, hnl, hnd.2⟩
    rintro (e | e)
    · exact hnh e.symm
    · exact hnd.1 e
  refine ⟨hnd2, ?_⟩
  simp only [linked]
  refine ⟨by simp [ADD_next st n h h hnh], by simp [ADD_prev st n h n hnh, hf.symm], ?_⟩
  cases l with
  | nil =>
    simp only [linked] at hlk ⊢
    refine ⟨by simp [ADD_next st n h n hnh, hnh, hlk.1], ?_⟩
    simp [ADD_prev st n h h hnh, hlk.1]
  | cons b l =>
    simp only [linked] at hlk ⊢
    simp only [List.nodup_cons, List.mem_cons, not_or] at hnd2 hnd hn
    refine ⟨by simp [ADD_next st n h n hnh, hnh, hlk.1], by simp [ADD_prev st n h b hnh, hlk.1], ?_⟩
    refine linked_frame hlk.2.2 (fun x hx => ?_) (fun x hx => ?_)
    · have : x ≠ h := by rintro rfl; simp at hx; tauto
      have : x ≠ n := by rintro rfl; simp at hx; tauto
      simp [ADD_next st n h x hnh, *]
    · have : x ≠ b := by rintro rfl; simp at hx; rcases hx with hx | hx <;> tauto
      have : x ≠ n := by rintro rfl; simp at hx; tauto
      simp [ADD_prev st n h x hnh, hlk.1, *]

theorem INIT_next (st : Heap) (p x : Nat) :
    ((IQUEUE_INIT st p) x).next = if x = p then p else (st x).next := by
  simp only [IQUEUE_INIT, setNext, setPrev]
  split_ifs <;> simp_all

theorem INIT_prev (st : Heap) (p x : Nat) :
    ((IQUEUE_INIT st p) x).prev = if x = p then p else (st x).prev := by
  simp only [IQUEUE_INIT, setNext, setPrev]
  split_ifs <;> simp_all

theorem INIT_other (st : Heap) (p x : Nat) (hx : x ≠ p) : (IQUEUE_INIT st p) x = st x := by
  simp [IQUEUE_INIT, setNext, setPrev, hx]

theorem isList_INIT (st : Heap) (h : Nat) : isList (IQUEUE_INIT st h) h [] := by
  refine ⟨by simp, ?_⟩
  simp [linked, INIT_next, INIT_prev]

theorem ADD_TAIL_next (st : Heap) (n h x : Nat) (hnh : n ≠ h) :
    ((IQUEUE_ADD_TAIL st n h) x).next =
      if x = (st h).prev then n else if x = n then h else (st x).next := by
  have hhn : h ≠ n := fun e => hnh e.symm
  simp only [IQUEUE_ADD_TAIL, setNext, setPrev]
  split_ifs <;> simp_all

theorem ADD_TAIL_prev (st : Heap) (n h x : Nat) (hnh : n ≠ h) :
    ((IQUEUE_ADD_TAIL st n h) x).prev =
      if x = h then n else if x = n then (st h).prev else (st x).prev := by
  have hhn : h ≠ n := fun e => hnh e.symm
  simp only [IQUEUE_ADD_TAIL, setNext, setPrev]
  split_ifs <;> simp_all

theorem isList_ADD_TAIL {st : Heap} {h n : Nat} {l : List Nat} (hl : isList st h l)
    (hn : n ∉ h :: l) : isList (IQUEUE_ADD_TAIL st n h) h (l ++ [n]) := by
  obtain ⟨hnd, hlk⟩ := hl
  have hnh : n ≠ h := fun e => hn (by simp [e])
  have hnl : n ∉ l := fun e => hn (List.mem_cons_of_mem _ e)
  have ht : (st h).prev ≠ n := by
    intro e
    have := linked_prev_mem hlk
    rw [e] at this
    exact hn this
  have hnd2 : (h :: (l ++ [n])).Nodup := by
    simp only [List.nodup_cons, List.mem_append, List.mem_singleton, not_or] at hnd ⊢
    refine ⟨⟨hnd.1, fun e => hnh e.symm⟩, ?_⟩
    rw [List.nodup_append]
    refine ⟨hnd.2, by simp, ?_⟩
    intro a ha hb
    rw [List.mem_singleton] at hb
    exact hnl (hb ▸ ha)
  refine ⟨hnd2, ?_⟩
  rw [linked_append]
  refine ⟨linked_retarget hlk hnd (fun x hx hxt => ?_) (fun x hx => ?_) ?_ ?_, ?_⟩
  · have : x ≠ n := by rintro rfl; exact hn hx
    simp [ADD_TAIL_next st n h x hnh, *]
  · have : x ≠ n := by rintro rfl; exact hnl hx
    have : x ≠ h := by rintro rfl; exact (List.nodup_cons.1 hnd).1 hx
    simp [ADD_TAIL_prev st n h x hnh, *]
  · simp [ADD_TAIL_next st n h _ hnh]
  · simp [ADD_TAIL_prev st n h _ hnh, hnh]
  · simp only [linked]
    exact ⟨by simp [ADD_TAIL_next st n h _ hnh, ht.symm], by simp [ADD_TAIL_prev st n h _ hnh]⟩

theorem DEL_next (st : Heap) (e x : Nat) (hp : (st e).prev ≠ e) (hq : (st e).next ≠ e) :
    ((IQUEUE_DEL st e) x).next =
      if x = e then 0 else if x = (st e).prev then (st e).next else (st x).next := by
  have hp2 : e ≠ (st e).prev := fun h => hp h.symm
  have hq2 : e ≠ (st e).next := fun h => hq h.symm
  simp only [IQUEUE_DEL, setNext, setPrev]
  split_ifs <;> simp_all

theorem DEL_prev (st : Heap) (e x : Nat) (hp : (st e).prev ≠ e) (hq : (st e).next ≠ e) :
    ((IQUEUE_DEL st e) x).prev =
      if x = e then 0 else if x = (st e).next then (st e).prev else (st x).prev := by
  have hp2 : e ≠ (st e).prev := fun h => hp h.symm
  have hq2 : e ≠ (st e).next := fun h => hq h.symm
  simp only [IQUEUE_DEL, setNext, setPrev]
  split_ifs <;> simp_all

theorem IQUEUEHEAD_eq {a b : IQUEUEHEAD} (hn : a.next = b.next) (hp : a.prev = b.prev) :
    a = b := by
  cases a; cases b; simp_all

theorem DEL_other (st : Heap) (e x : Nat) (hp : (st e).prev ≠ e) (hq : (st e).next ≠ e)
    (h1 : x ≠ e) (h2 : x ≠ (st e).prev) (h3 : x ≠ (st e).next) :
    (IQUEUE_DEL st e) x = st x :=
  IQUEUEHEAD_eq (by simp [DEL_next st e x hp hq, h1, h2])
    (by simp [DEL_prev st e x hp hq, h1, h3])

theorem nodup_split {h e : Nat} {l1 l2 : List Nat} (hnd : (h :: (l1 ++ e :: l2)).Nodup) :
    h ∉ l1 ∧ h ≠ e ∧ h ∉ l2 ∧ l1.Nodup ∧ e ∉ l1 ∧ e ∉ l2 ∧ l2.Nodup ∧ ∀ x ∈ l1, x ∉ l2 := by
  simp only [List.nodup_cons, List.mem_append, List.mem_cons, not_or, List.nodup_append,
    List.disjoint_cons_right, List.disjoint_left] at hnd
  obtain ⟨⟨a1, a2, a3⟩, a4, ⟨a5, a6⟩, a7⟩ := hnd
  exact ⟨a1, a2, a3, a4, fun hm => (a7 hm).1 rfl, a5, a6, fun x hx => (a7 hx).2⟩

theorem isList_DEL_split {st : Heap} {h e : Nat} {l1 l2 : List Nat}
    (hl : isList st h (l1 ++ e :: l2)) : isList (IQUEUE_DEL st e) h (l1 ++ l2) := by
  obtain ⟨hnd, hlk⟩ := hl
  rw [linked_append] at hlk
  obtain ⟨hA, hB⟩ := hlk
  have hpm : (st e).prev = h ∨ (st e).prev ∈ l1 := List.mem_cons.1 (linked_prev_mem hA)
  have hqm : (st e).next ∈ l2 ∨ (st e).next = h := by
    have := linked_next_mem hB
    rwa [List.mem_append, List.mem_singleton] at this
  obtain ⟨hh1, hhe, hh2, hnd1, he1, he2, hndB, hd12⟩ := nodup_split hnd
  have hp : (st e).prev ≠ e := by
    rcases hpm with hpm | hpm
    · rw [hpm]; exact hhe
    · intro e2; rw [e2] at hpm; exact he1 hpm
  have hq : (st e).next ≠ e := by
    rcases hqm with hqm | hqm
    · intro e2; rw [e2] at hqm; exact he2 hqm
    · rw [hqm]; exact hhe
  have hndA : (h :: l1).Nodup := List.nodup_cons.2 ⟨hh1, hnd1⟩
  have hnd2 : (h :: (l1 ++ l2)).Nodup := by
    simp only [List.nodup_cons, List.mem_append, not_or, List.nodup_append, List.disjoint_left]
    exact ⟨⟨hh1, hh2⟩, hnd1, hndB, fun _ hx hx2 => hd12 _ hx hx2⟩
  refine ⟨hnd2, ?_⟩
  -- the part before `e` now ends at the old successor of `e`
  have hfront : linked (IQUEUE_DEL st e) h l1 (st e).next := by
    refine linked_retarget hA hndA (fun x hx hxp => ?_) (fun x hx => ?_) ?_ ?_
    · have hxe : x ≠ e := by
        rintro rfl
        rcases List.mem_cons.1 hx with hx | hx
        · exact hhe hx.symm
        · exact he1 hx
      rw [DEL_next st e x hp hq, if_neg hxe, if_neg hxp]
    · have hxe : x ≠ e := by rintro rfl; exact he1 hx
      have hxq : x ≠ (st e).next := by
        intro e2
        rw [e2] at hx
        rcases hqm with hqm | hqm
        · exact hd12 _ hx hqm
        · rw [hqm] at hx; exact hh1 hx
      rw [DEL_prev st e x hp hq, if_neg hxe, if_neg hxq]
    · rw [DEL_next st e _ hp hq, if_neg hp, if_pos rfl]
    · rw [DEL_prev st e _ hp hq, if_neg hq, if_pos rfl]
  cases l2 with
  | nil =>
    simp only [linked] at hB
    rw [hB.1] at hfront
    simpa using hfront
  | cons q l2 =>
    simp only [linked] at hB
    rw [hB.1] at hfront
    rw [linked_append]
    refine ⟨hfront, linked_frame hB.2.2 (fun x hx => ?_) (fun x hx => ?_)⟩
    · have hxe : x ≠ e := by rintro rfl; exact he2 hx
      have hxp : x ≠ (st e).prev := by
        intro e2
        rw [e2] at hx
        rcases hpm with hpm | hpm
        · rw [hpm] at hx; exact hh2 hx
        · exact hd12 _ hpm hx
      rw [DEL_next st e x hp hq, if_neg hxe, if_neg hxp]
    · rw [List.mem_append, List.mem_singleton] at hx
      have hxe : x ≠ e := by
        rintro rfl
        rcases hx with hx | hx
        · exact he2 (List.mem_cons_of_mem _ hx)
        · exact hhe hx.symm
      have hxq : x ≠ (st e).next := by
        rw [hB.1]
        rintro rfl
        rcases hx with hx | hx
        · exact (List.nodup_cons.1 hndB).1 hx
        · exact hh2 (by rw [← hx]; exact List.mem_cons_self _ _)
      rw [DEL_prev st e x hp hq, if_neg hxe, if_neg hxq]

theorem erase_split {e : Nat} {l1 l2 : List Nat} (he : e ∉ l1) :
    (l1 ++ e :: l2).erase e = l1 ++ l2 := by
  rw [List.erase_append_right _ he, List.erase_cons_head]

theorem isList_DEL {st : Heap} {h e : Nat} {l : List Nat}
    (hl : isList st h l) (he : e ∈ l) : isList (IQUEUE_DEL st e) h (l.erase e) := by
  obtain ⟨l1, l2, rfl⟩ := List.append_of_mem he
  have he1 : e ∉ l1 := (nodup_split hl.1).2.2.2.2.1
  rw [erase_split he1]
  exact isList_DEL_split hl

theorem splice_next (st : Heap) (list head x : Nat) :
    ((__iqueue_splice st list head) x).next =
      if x = (st list).prev then (st head).next
      else if x = head then (st list).next else (st x).next := by
  simp only [__iqueue_splice, setNext_next, setNext_prev, setPrev_prev, setPrev_next]

theorem splice_prev (st : Heap) (list head x : Nat) :
    ((__iqueue_splice st list head) x).prev =
      if x = (st head).next then (st list).prev
      else if x = (st list).next then head else (st x).prev := by
  simp only [__iqueue_splice, setNext_next, setNext_prev, setPrev_prev, setPrev_next]

theorem linked_splice {st : Heap} {list head b : Nat} {bl al : List Nat}
    (hL : isList st list (b :: bl)) (hH : isList st head al)
    (hdis : ∀ x ∈ list :: b :: bl, x ∉ head :: al) :
    linked (__iqueue_splice st list head) head (b :: bl ++ al) head := by
  obtain ⟨hndL, hlkL⟩ := hL
  obtain ⟨hndH, hlkH⟩ := hH
  simp only [linked] at hlkL
  obtain ⟨hfirst, _, hlkB⟩ := hlkL
  have hlast : (st list).prev ∈ b :: bl := linked_prev_mem hlkB
  have hat : (st head).next ∈ al ++ [head] := linked_next_mem hlkH
  have hndB : (b :: bl).Nodup := (List.nodup_cons.1 hndL).2
  have hHal : head ∉ al := (List.nodup_cons.1 hndH).1
  have hdB : ∀ x ∈ b :: bl, x ∉ head :: al := fun x hx => hdis x (List.mem_cons_of_mem _ hx)
  have hat2 : (st head).next ∈ head :: al := by
    rw [List.mem_append, List.mem_singleton] at hat
    rcases hat with h | h
    · exact List.mem_cons_of_mem _ h
    · rw [h]; exact List.mem_cons_self _ _
  have hHlast : head ≠ (st list).prev := by
    intro e; rw [← e] at hlast; exact hdB _ hlast (List.mem_cons_self _ _)
  have hbat : b ≠ (st head).next := by
    intro e; rw [← e] at hat2; exact hdB _ (List.mem_cons_self _ _) hat2
  show linked _ head (b :: (bl ++ al)) head
  simp only [linked]
  refine ⟨?_, ?_, ?_⟩
  · rw [splice_next, if_neg hHlast, if_pos rfl, hfirst]
  · rw [splice_prev, if_neg hbat, hfirst, if_pos rfl]
  -- the spliced elements now run into the old first element of `head`
  have hfront : linked (__iqueue_splice st list head) b bl (st head).next := by
    refine linked_retarget hlkB hndB (fun x hx hxl => ?_) (fun x hx => ?_) ?_ ?_
    · have hxH : x ≠ head := by rintro rfl; exact hdB _ hx (List.mem_cons_self _ _)
      rw [splice_next, if_neg hxl, if_neg hxH]
    · have hxat : x ≠ (st head).next := by
        intro e; rw [← e] at hat2; exact hdB _ (List.mem_cons_of_mem _ hx) hat2
      have hxb : x ≠ (st list).next := by
        rw [hfirst]; rintro rfl; exact (List.nodup_cons.1 hndB).1 hx
      rw [splice_prev, if_neg hxat, if_neg hxb]
    · rw [splice_next, if_pos rfl]
    · rw [splice_prev, if_pos rfl]
  cases al with
  | nil =>
    simp only [linked] at hlkH
    rw [hlkH.1] at hfront
    simpa using hfront
  | cons a al =>
    simp only [linked] at hlkH
    rw [hlkH.1] at hfront
    rw [linked_append]
    have hndA : (a :: al).Nodup := (List.nodup_cons.1 hndH).2
    refine ⟨hfront, linked_frame hlkH.2.2 (fun x hx => ?_) (fun x hx => ?_)⟩
    · have hxl : x ≠ (st list).prev := by
        intro e; rw [← e] at hlast; exact hdB _ hlast (List.mem_cons_of_mem _ hx)
      have hxH : x ≠ head := by rintro rfl; exact hHal hx
      rw [splice_next, if_neg hxl, if_neg hxH]
    · rw [List.mem_append, List.mem_singleton] at hx
      have hxa : x ≠ (st head).next := by
        rw [hlkH.1]
        rintro rfl
        rcases hx with hx | hx
        · exact (List.nodup_cons.1 hndA).1 hx
        · exact hHal (by rw [← hx]; exact List.mem_cons_self _ _)
      have hxb : x ≠ (st list).next := by
        rw [hfirst]
        rintro rfl
        refine hdB _ (List.mem_cons_self _ _) ?_
        rcases hx with hx | hx
        · exact List.mem_cons_of_mem _ (List.mem_cons_of_mem _ hx)
        · rw [hx]; exact List.mem_cons_self _ _
      rw [splice_prev, if_neg hxa, if_neg hxb]

theorem isList_splice_init {st : Heap} {list head : Nat} {bl al : List Nat}
    (hL : isList st list bl) (hH : isList st head al)
    (hdis : ∀ x ∈ list :: bl, x ∉ head :: al) :
    isList (iqueue_splice_init st list head) head (bl ++ al) ∧
    isList (iqueue_splice_init st list head) list [] := by
  refine ⟨?_, isList_INIT _ _⟩
  have hnd : (head :: (bl ++ al)).Nodup := by
    have h1 := hL.1
    have h2 := hH.1
    simp only [List.nodup_cons, List.mem_append, not_or, List.nodup_append,
      List.disjoint_left] at h1 h2 ⊢
    refine ⟨⟨fun hm => hdis _ (List.mem_cons_of_mem _ hm) (List.mem_cons_self _ _), h2.1⟩,
      h1.2, h2.2, fun x hx hx2 => ?_⟩
    exact hdis _ (List.mem_cons_of_mem _ hx) (List.mem_cons_of_mem _ hx2)
  have hLn : ∀ x ∈ head :: (bl ++ al), x ≠ list := by
    rintro x hx rfl
    rcases List.mem_cons.1 hx with hx | hx
    · exact hdis _ (List.mem_cons_self _ _) (by rw [← hx]; exact List.mem_cons_self _ _)
    · rcases List.mem_append.1 hx with hx | hx
      · exact (List.nodup_cons.1 hL.1).1 hx
      · exact hdis _ (List.mem_cons_self _ _) (List.mem_cons_of_mem _ hx)
  unfold iqueue_splice_init
  cases bl with
  | nil =>
    have he : IQUEUE_IS_EMPTY st list = true := by
      simp [IQUEUE_IS_EMPTY, hL.2.1]
    simp only [iqueue_splice, he]
    exact isList_frame hH (fun x hx => INIT_other _ _ _ (hLn x (by simpa using hx)))
  | cons b bl =>
    have hne : IQUEUE_IS_EMPTY st list = false := by
      have : list ≠ b := fun e => (List.nodup_cons.1 hL.1).1 (by rw [e]; exact List.mem_cons_self _ _)
      simp [IQUEUE_IS_EMPTY, hL.2.1, this]
    simp only [iqueue_splice, hne]
    exact isList_frame ⟨hnd, linked_splice hL hH hdis⟩ (fun x hx => INIT_other _ _ _ (hLn x hx))

theorem ADD_other (st : Heap) (n h x : Nat) (hnh : n ≠ h) (h1 : x ≠ n) (h2 : x ≠ h)
    (h3 : x ≠ (st h).next) : (IQUEUE_ADD st n h) x = st x :=
  IQUEUEHEAD_eq (by rw [ADD_next st n h x hnh, if_neg h2, if_neg h1])
    (by rw [ADD_prev st n h x hnh, if_neg h3, if_neg h1])

/-- Two segments that start at the same node and end at two nodes, neither of which lies
inside the other segment, end at the same node. -/
theorem linked_unique {st : Heap} {h1 h2 : Nat} : ∀ {a : Nat} {l1 l2 : List Nat},
    linked st a l1 h1 → linked st a l2 h2 → h1 ∉ l2 → h2 ∉ l1 → h1 = h2
  | a, [], [], p1, p2, _, _ => p1.1.symm.trans p2.1
  | a, [], c :: l2, p1, p2, n1, _ =>
    absurd (by rw [← p1.1, p2.1]; exact List.mem_cons_self _ _) n1
  | a, b :: l1, [], p1, p2, _, n2 =>
    absurd (by rw [← p2.1, p1.1]; exact List.mem_cons_self _ _) n2
  | a, b :: l1, c :: l2, p1, p2, n1, n2 => by
    have hbc : b = c := p1.1.symm.trans p2.1
    subst hbc
    exact linked_unique p1.2.2 p2.2.2 (fun hm => n1 (List.mem_cons_of_mem _ hm))
      (fun hm => n2 (List.mem_cons_of_mem _ hm))

/-- Lists with different heads, neither head an element of the other list, share no
node. -/
theorem isList_disjoint {st : Heap} {hA hB : Nat} {la lb : List Nat}
    (hLA : isList st hA la) (hLB : isList st hB lb) (hAB : hA ≠ hB)
    (hAb : hA ∉ lb) (hBa : hB ∉ la) : ∀ x ∈ hA :: la, x ∉ hB :: lb := by
  intro x hx hx2
  rcases List.mem_cons.1 hx with rfl | hx
  · rcases List.mem_cons.1 hx2 with e | hx2
    · exact hAB e
    · exact hAb hx2
  · rcases List.mem_cons.1 hx2 with rfl | hx2
    · exact hBa hx
    · obtain ⟨p1, s1, rfl⟩ := List.append_of_mem hx
      obtain ⟨p2, s2, rfl⟩ := List.append_of_mem hx2
      have k1 := (linked_append.1 hLA.2).2
      have k2 := (linked_append.1 hLB.2).2
      refine hAB (linked_unique k1 k2 (fun hm => hAb ?_) (fun hm => hBa ?_))
      · exact List.mem_append_right _ (List.mem_cons_of_mem _ hm)
      · exact List.mem_append_right _ (List.mem_cons_of_mem _ hm)

/-- In a well-formed list every node `x` on it, the head included, satisfies
`x->next->prev == x` and `x->prev->next == x`, and `next` and `prev` stay on the list. -/
theorem linked_links {st : Heap} : ∀ {a : Nat} {l : List Nat} {h : Nat}, linked st a l h →
    (∀ x ∈ a :: l, (st (st x).next).prev = x ∧ (st x).next ∈ l ++ [h]) ∧
    (∀ x ∈ l ++ [h], (st (st x).prev).next = x ∧ (st x).prev ∈ a :: l)
  | a, [], h, hl => by
    obtain ⟨h1, h2⟩ := hl
    constructor
    · intro x hx
      rw [List.mem_singleton.1 hx, h1, h2]
      exact ⟨rfl, by simp⟩
    · intro x hx
      have : x = h := by simpa using hx
      rw [this, h2, h1]
      exact ⟨rfl, by simp⟩
  | a, b :: l, h, hl => by
    obtain ⟨h1, h2, h3⟩ := hl
    obtain ⟨ih1, ih2⟩ := linked_links h3
    constructor
    · intro x hx
      rcases List.mem_cons.1 hx with rfl | hx
      · rw [h1, h2]
        exact ⟨rfl, by simp⟩
      · exact ⟨(ih1 x hx).1, List.mem_cons_of_mem _ (ih1 x hx).2⟩
    · intro x hx
      rcases List.mem_cons.1 hx with rfl | hx
      · rw [h2, h1]
        exact ⟨rfl, by simp⟩
      · exact ⟨(ih2 x hx).1, List.mem_cons_of_mem _ (ih2 x hx).2⟩

theorem isList_links {st : Heap} {h : Nat} {l : List Nat} (hl : isList st h l) :
    ∀ x ∈ h :: l, (st (st x).next).prev = x ∧ (st (st x).prev).next = x := by
  obtain ⟨h1, h2⟩ := linked_links hl.2
  intro x hx
  refine ⟨(h1 x hx).1, (h2 x ?_).1⟩
  rcases List.mem_cons.1 hx with rfl | hx
  · simp
  · simp [hx]

theorem linked_nextPath {st : Heap} : ∀ {a : Nat} {l : List Nat} {h : Nat},
    linked st a l h → nextPath st a l h
  | _, [], _, hl => hl.1
  | _, _ :: _, _, hl => ⟨hl.1, linked_nextPath hl.2.2⟩

theorem nextPath_append {st : Heap} :
    ∀ {a : Nat} {l1 : List Nat} {b : Nat} {l2 : List Nat} {h : Nat},
    nextPath st a (l1 ++ b :: l2) h ↔ nextPath st a l1 b ∧ nextPath st b l2 h
  | a, [], b, l2, h => by simp [nextPath]
  | a, c :: l1, b, l2, h => by
    have ih := @nextPath_append st c l1 b l2 h
    show nextPath st a (c :: (l1 ++ b :: l2)) h ↔ nextPath st a (c :: l1) b ∧ nextPath st b l2 h
    simp only [nextPath, and_assoc, ih]

/-- Two paths from the same node, each ending at a node that does not lie on the other
path, are the same path. -/
theorem nextPath_unique {st : Heap} {h1 h2 : Nat} : ∀ {a : Nat} {l1 l2 : List Nat},
    nextPath st a l1 h1 → nextPath st a l2 h2 → h1 ∉ l2 → h2 ∉ l1 → l1 = l2
  | a, [], [], _, _, _, _ => rfl
  | a, [], c :: l2, p1, p2, n1, _ =>
    absurd (by rw [← p1, p2.1]; exact List.mem_cons_self _ _) n1
  | a, b :: l1, [], p1, p2, _, n2 =>
    absurd (by rw [← p2, p1.1]; exact List.mem_cons_self _ _) n2
  | a, b :: l1, c :: l2, p1, p2, n1, n2 => by
    have hbc : b = c := p1.1.symm.trans p2.1
    subst hbc
    rw [nextPath_unique p1.2 p2.2 (fun hm => n1 (List.mem_cons_of_mem _ hm))
      (fun hm => n2 (List.mem_cons_of_mem _ hm))]

/-- A path that reaches `h` for the first time at its end visits no node twice. -/
theorem nextPath_nodup {st : Heap} {h : Nat} : ∀ {a : Nat} {l : List Nat},
    nextPath st a l h → h ∉ l → l.Nodup
  | _, [], _, _ => List.nodup_nil
  | a, b :: l, p, hn => by
    have hl : h ∉ l := fun hm => hn (List.mem_cons_of_mem _ hm)
    refine List.nodup_cons.2 ⟨fun hb => ?_, nextPath_nodup p.2 hl⟩
    obtain ⟨l1, l2, rfl⟩ := List.append_of_mem hb
    have p2 := (nextPath_append.1 p.2).2
    have hl2 : h ∉ l2 := fun hm =>
      hl (List.mem_append_right _ (List.mem_cons_of_mem _ hm))
    have e := nextPath_unique p.2 p2 hl2 hl
    have hlen := congrArg List.length e
    simp only [List.length_append, List.length_cons] at hlen
    omega

theorem linked_of_nextPath {st : Heap} : ∀ {a : Nat} {l : List Nat} {h : Nat},
    nextPath st a l h → (∀ x ∈ a :: l, (st (st x).next).prev = x) → linked st a l h
  | a, [], h, p, hp => by
    have := hp a (List.mem_cons_self _ _)
    rw [p] at this
    exact ⟨p, this⟩
  | a, b :: l, h, p, hp => by
    have := hp a (List.mem_cons_self _ _)
    rw [p.1] at this
    exact ⟨p.1, this, linked_of_nextPath p.2 (fun x hx => hp x (List.mem_cons_of_mem _ hx))⟩

/-- The two formulations of well-formedness agree. -/
theorem wellFormed_iff_isList {st : Heap} {h : Nat} {l : List Nat} :
    wellFormed st h l ↔ isList st h l := by
  constructor
  · rintro ⟨hn, hp, hx⟩
    exact ⟨List.nodup_cons.2 ⟨hn, nextPath_nodup hp hn⟩,
      linked_of_nextPath hp (fun x hm => (hx x hm).1)⟩
  · intro hl
    exact ⟨(List.nodup_cons.1 hl.1).1, linked_nextPath hl.2, isList_links hl⟩

/-- The neighbours of an element of a well-formed list are nodes of the list other than
the element itself. -/
theorem isList_neighbours {st : Heap} {h e : Nat} {l : List Nat} (hl : isList st h l)
    (he : e ∈ l) :
    (st e).prev ≠ e ∧ (st e).next ≠ e ∧ (st e).prev ∈ h :: l ∧ (st e).next ∈ h :: l := by
  obtain ⟨l1, l2, rfl⟩ := List.append_of_mem he
  obtain ⟨hnd, hlk⟩ := hl
  rw [linked_append] at hlk
  obtain ⟨hA, hB⟩ := hlk
  have hpm : (st e).prev = h ∨ (st e).prev ∈ l1 := List.mem_cons.1 (linked_prev_mem hA)
  have hqm : (st e).next ∈ l2 ∨ (st e).next = h := by
    have := linked_next_mem hB
    rwa [List.mem_append, List.mem_singleton] at this
  obtain ⟨_, hhe, _, _, he1, he2, _, _⟩ := nodup_split hnd
  refine ⟨?_, ?_, ?_, ?_⟩
  · rcases hpm with hpm | hpm
    · rw [hpm]; exact hhe
    · intro e2; rw [e2] at hpm; exact he1 hpm
  · rcases hqm with hqm | hqm
    · intro e2; rw [e2] at hqm; exact he2 hqm
    · rw [hqm]; exact hhe
  · rcases hpm with hpm | hpm
    · rw [hpm]; exact List.mem_cons_self _ _
    · exact List.mem_cons_of_mem _ (List.mem_append_left _ hpm)
  · rcases hqm with hqm | hqm
    · exact List.mem_cons_of_mem _ (List.mem_append_right _ (List.mem_cons_of_mem _ hqm))
    · rw [hqm]; exact List.mem_cons_self _ _

theorem isList_next_head_mem {st : Heap} {h : Nat} {l : List Nat} (hl : isList st h l) :
    (st h).next ∈ h :: l := by
  have := linked_next_mem hl.2
  rw [List.mem_append, List.mem_singleton] at this
  rcases this with hm | hm
  · exact List.mem_cons_of_mem _ hm
  · rw [hm]; exact List.mem_cons_self _ _

/-- C3: for two distinct well-formed circular lists A and B (different heads, neither head
an element of the other list) and a link `n` that is an element of A, `IQUEUE_DEL(n)`
followed by `IQUEUE_ADD(n, B)` leaves A holding its old elements without `n` in their
old order and B holding `n` followed by its old elements, and changes the links of no
node other than `n`, its two old neighbours, the head of B and the old first node of B;
hence `n` is an element of exactly one of the lists afterwards and the total number of
elements is unchanged. -/
theorem move_between_lists (st : Heap) (hA hB n : Nat) (la lb : List Nat)
    (hWA : wellFormed st hA la) (hWB : wellFormed st hB lb) (hAB : hA ≠ hB)
    (hAb : hA ∉ lb) (hBa : hB ∉ la) (hn : n ∈ la) :
    wellFormed (IQUEUE_ADD (IQUEUE_DEL st n) n hB) hA (la.erase n) ∧
    wellFormed (IQUEUE_ADD (IQUEUE_DEL st n) n hB) hB (n :: lb) ∧
    (∀ x, x ≠ n → x ≠ (st n).prev → x ≠ (st n).next → x ≠ hB → x ≠ (st hB).next →
      (IQUEUE_ADD (IQUEUE_DEL st n) n hB) x = st x) ∧
    (n ∈ n :: lb ∧ n ∉ la.erase n) ∧
    (la.erase n).length + (n :: lb).length = la.length + lb.length := by
  have hLA := wellFormed_iff_isList.1 hWA
  have hLB := wellFormed_iff_isList.1 hWB
  have hdis := isList_disjoint hLA hLB hAB hAb hBa
  obtain ⟨hp, hq, hpm, hqm⟩ := isList_neighbours hLA hn
  have hnA : n ∈ hA :: la := List.mem_cons_of_mem _ hn
  have hnB : n ∉ hB :: lb := hdis n hnA
  have hnhB : n ≠ hB := fun e => hnB (by rw [e]; exact List.mem_cons_self _ _)
  -- cells of B are untouched by the deletion
  have hBsame : ∀ x ∈ hB :: lb, (IQUEUE_DEL st n) x = st x := by
    intro x hx
    refine DEL_other st n x hp hq ?_ ?_ ?_
    · rintro rfl; exact hnB hx
    · intro e; rw [e] at hx; exact hdis _ hpm hx
    · intro e; rw [e] at hx; exact hdis _ hqm hx
  have A1 : isList (IQUEUE_DEL st n) hA (la.erase n) := isList_DEL hLA hn
  have B1 : isList (IQUEUE_DEL st n) hB lb := isList_frame hLB hBsame
  have hfirst : (IQUEUE_DEL st n hB).next = (st hB).next := by
    rw [hBsame hB (List.mem_cons_self _ _)]
  have hnodupA : la.Nodup := (List.nodup_cons.1 hLA.1).2
  have hnot : n ∉ la.erase n := fun hm => ((hnodupA.mem_erase_iff).1 hm).1 rfl
  refine ⟨wellFormed_iff_isList.2 ?_, wellFormed_iff_isList.2 (isList_ADD B1 hnB), ?_,
    ⟨List.mem_cons_self _ _, hnot⟩, ?_⟩
  · refine isList_frame A1 (fun x hx => ADD_other _ n hB x hnhB ?_ ?_ ?_)
    · rintro rfl
      rcases List.mem_cons.1 hx with e | hm
      · exact (List.nodup_cons.1 hLA.1).1 (by rw [← e]; exact hn)
      · exact hnot hm
    · rintro rfl
      rcases List.mem_cons.1 hx with e | hm
      · exact hAB e.symm
      · exact hBa (List.mem_of_mem_erase hm)
    · intro e
      have hxA : x ∈ hA :: la := by
        rcases List.mem_cons.1 hx with e2 | hm
        · rw [e2]; exact List.mem_cons_self _ _
        · exact List.mem_cons_of_mem _ (List.mem_of_mem_erase hm)
      have := isList_next_head_mem B1
      rw [← e] at this
      exact hdis x hxA this
  · intro x h1 h2 h3 h4 h5
    rw [ADD_other _ n hB x hnhB h1 h4 (by rw [hfirst]; exact h5)]
    exact DEL_other st n x hp hq h1 h2 h3
  · have := List.length_erase_of_mem hn
    have hpos : 0 < la.length := List.length_pos_of_mem hn
    simp only [List.length_cons]
    omega

theorem move_between_lists_witness :
    wellFormed heap_example 1 [11, 12] ∧ wellFormed heap_example 2 [21] ∧
    wellFormed (IQUEUE_ADD (IQUEUE_DEL heap_example 11) 11 2) 1 [12] ∧
    wellFormed (IQUEUE_ADD (IQUEUE_DEL heap_example 11) 11 2) 2 [11, 21] := by
  have h := move_between_lists heap_example 1 2 11 [11, 12] [21] (by decide) (by decide)
    (by decide) (by decide) (by decide) (by decide)
  exact ⟨by decide, by decide, h.1, h.2.1⟩

theorem isList_DEL_INIT {st : Heap} {h e : Nat} {l : List Nat}
    (hl : isList st h l) (he : e ∈ l) :
    isList (IQUEUE_DEL_INIT st e) h (l.erase e) ∧ isList (IQUEUE_DEL_INIT st e) e [] := by
  refine ⟨isList_frame (isList_DEL hl he) (fun x hx => INIT_other _ _ _ ?_), isList_INIT _ _⟩
  rintro rfl
  rcases List.mem_cons.1 hx with e2 | hm
  · exact (List.nodup_cons.1 hl.1).1 (by rw [← e2]; exact he)
  · exact (((List.nodup_cons.1 hl.1).2.mem_erase_iff).1 hm).1 rfl

/-- C9: well-formedness of a circular doubly-linked list (the nodes reached from the head
by `next` form a cycle back to the head, and every node `x` on it has
`x->next->prev == x` and `x->prev->next == x`) is kept by the queue operations: it holds
after `IQUEUE_INIT(h)`; it holds after `IQUEUE_ADD(n, h)` and `IQUEUE_ADD_TAIL(n, h)` with
`n` not on the list, after `IQUEUE_DEL_INIT(e)` with `e` an element, the deleted entry
being a well-formed empty list, and after `iqueue_splice_init(l, h)` with `l` and `h`
disjoint lists, the spliced-from head being a well-formed empty list. -/
theorem queue_ops_keep_well_formed :
    (∀ (st : Heap) (h : Nat), wellFormed (IQUEUE_INIT st h) h []) ∧
    (∀ (st : Heap) (h n : Nat) (l : List Nat), wellFormed st h l → n ∉ h :: l →
      wellFormed (IQUEUE_ADD st n h) h (n :: l)) ∧
    (∀ (st : Heap) (h n : Nat) (l : List Nat), wellFormed st h l → n ∉ h :: l →
      wellFormed (IQUEUE_ADD_TAIL st n h) h (l ++ [n])) ∧
    (∀ (st : Heap) (h e : Nat) (l : List Nat), wellFormed st h l → e ∈ l →
      wellFormed (IQUEUE_DEL_INIT st e) h (l.erase e) ∧
      wellFormed (IQUEUE_DEL_INIT st e) e []) ∧
    (∀ (st : Heap) (list head : Nat) (bl al : List Nat), wellFormed st list bl →
      wellFormed st head al → (∀ x ∈ list :: bl, x ∉ head :: al) →
      wellFormed (iqueue_splice_init st list head) head (bl ++ al) ∧
      wellFormed (iqueue_splice_init st list head) list []) := by
  refine ⟨fun st h => wellFormed_iff_isList.2 (isList_INIT st h), ?_, ?_, ?_, ?_⟩
  · intro st h n l hl hn
    exact wellFormed_iff_isList.2 (isList_ADD (wellFormed_iff_isList.1 hl) hn)
  · intro st h n l hl hn
    exact wellFormed_iff_isList.2 (isList_ADD_TAIL (wellFormed_iff_isList.1 hl) hn)
  · intro st h e l hl he
    obtain ⟨h1, h2⟩ := isList_DEL_INIT (wellFormed_iff_isList.1 hl) he
    exact ⟨wellFormed_iff_isList.2 h1, wellFormed_iff_isList.2 h2⟩
  · intro st list head bl al hL hH hdis
    obtain ⟨h1, h2⟩ :=
      isList_splice_init (wellFormed_iff_isList.1 hL) (wellFormed_iff_isList.1 hH) hdis
    exact ⟨wellFormed_iff_isList.2 h1, wellFormed_iff_isList.2 h2⟩

theorem queue_ops_keep_well_formed_witness :
    wellFormed heap_example 1 [11, 12] ∧ wellFormed heap_example 2 [21] ∧
    wellFormed (IQUEUE_ADD heap_example 30 1) 1 [30, 11, 12] ∧
    wellFormed (IQUEUE_ADD_TAIL heap_example 30 1) 1 [11, 12, 30] ∧
    wellFormed (IQUEUE_DEL_INIT heap_example 12) 1 [11] ∧
    wellFormed (IQUEUE_DEL_INIT heap_example 12) 12 [] ∧
    wellFormed (iqueue_splice_init heap_example 2 1) 1 [21, 11, 12] ∧
    wellFormed (iqueue_splice_init heap_example 2 1) 2 [] :=
  ⟨by decide, by decide,
    queue_ops_keep_well_formed.2.1 heap_example 1 30 [11, 12] (by decide) (by decide),
    queue_ops_keep_well_formed.2.2.1 heap_example 1 30 [11, 12] (by decide) (by decide),
    (queue_ops_keep_well_formed.2.2.2.1 heap_example 1 12 [11, 12] (by decide) (by decide)).1,
    (queue_ops_keep_well_formed.2.2.2.1 heap_example 1 12 [11, 12] (by decide) (by decide)).2,
    (queue_ops_keep_well_formed.2.2.2.2 heap_example 2 1 [21] [11, 12] (by decide)
      (by decide) (by decide)).1,
    (queue_ops_keep_well_formed.2.2.2.2 heap_example 2 1 [21] [11, 12] (by decide)
      (by decide) (by decide)).2⟩

/-- C10: for two disjoint well-formed lists, `list` holding `b1..bm` and `head` holding
`a1..ak` in next-order, `iqueue_splice_init(list, head)` leaves `head` holding `b1..bm`
followed by `a1..ak` and leaves `list` empty, `IQUEUE_IS_EMPTY(list)` holding; when
`m = 0` the links of every node other than `list`, so those of `head` and of `a1..ak`,
are unchanged. -/
theorem splice_init_order (st : Heap) (list head : Nat) (bl al : List Nat)
    (hL : wellFormed st list bl) (hH : wellFormed st head al)
    (hdis : ∀ x ∈ list :: bl, x ∉ head :: al) :
    wellFormed (iqueue_splice_init st list head) head (bl ++ al) ∧
    wellFormed (iqueue_splice_init st list head) list [] ∧
    IQUEUE_IS_EMPTY (iqueue_splice_init st list head) list = true ∧
    (bl = [] → (∀ x, x ≠ list → (iqueue_splice_init st list head) x = st x) ∧
      ∀ x ∈ head :: al, (iqueue_splice_init st list head) x = st x) := by
  obtain ⟨h1, h2⟩ :=
    isList_splice_init (wellFormed_iff_isList.1 hL) (wellFormed_iff_isList.1 hH) hdis
  refine ⟨wellFormed_iff_isList.2 h1, wellFormed_iff_isList.2 h2, ?_, ?_⟩
  · simp [IQUEUE_IS_EMPTY, h2.2.1]
  · rintro rfl
    have hnext : (st list).next = list := hL.2.1
    have he : IQUEUE_IS_EMPTY st list = true := by
      simp [IQUEUE_IS_EMPTY, hnext]
    have hall : ∀ x, x ≠ list → (iqueue_splice_init st list head) x = st x := by
      intro x hx
      simp only [iqueue_splice_init, iqueue_splice, he]
      exact INIT_other _ _ _ hx
    refine ⟨hall, fun x hx => hall x ?_⟩
    rintro rfl
    exact hdis _ (List.mem_cons_self _ _) hx

theorem splice_init_order_witness :
    wellFormed heap_example 2 [21] ∧ wellFormed heap_example 1 [11, 12] ∧
    wellFormed (iqueue_splice_init heap_example 2 1) 1 [21, 11, 12] ∧
    IQUEUE_IS_EMPTY (iqueue_splice_init heap_example 2 1) 2 = true := by
  have h := splice_init_order heap_example 2 1 [21] [11, 12] (by decide) (by decide)
    (by decide)
  exact ⟨by decide, by decide, h.1, h.2.2.1⟩

/-! ### The kmem facade -/

theorem ikmem_init_sorted (page_shift : Nat) (pg_malloc : Int) (sz : Option (List Nat)) :
    (ikmem_init page_shift pg_malloc sz).classes.Sorted (fun a b => a ≤ b) :=
  List.sorted_insertionSort _ _

/-- The caches built by `ikmem_init` are those of the requested sizes that are below half
a page. -/
theorem ikmem_init_mem (page_shift : Nat) (pg_malloc : Int) (sz : Option (List Nat))
    (c : Nat) :
    c ∈ (ikmem_init page_shift pg_malloc sz).classes ↔
      c ∈ sz.getD default_sizes ∧ c < (1 <<< page_shift) / 2 := by
  show c ∈ List.insertionSort _ _ ↔ _
  rw [(List.perm_insertionSort _ _).mem_iff, List.mem_filter, decide_eq_true_iff]

theorem largest_class_mem {classes : List Nat} (h : 0 < largest_class classes) :
    largest_class classes ∈ classes := by
  induction classes with
  | nil => exact absurd h (by simp [largest_class])
  | cons a l ih =>
    show max a (largest_class l) ∈ a :: l
    rcases le_total a (largest_class l) with hle | hle
    · rw [max_eq_right hle]
      have hpos : 0 < largest_class l := by
        have : 0 < max a (largest_class l) := h
        rw [max_eq_right hle] at this
        exact this
      exact List.mem_cons_of_mem _ (ih hpos)
    · rw [max_eq_left hle]
      exact List.mem_cons_self _ _

/-- On a sorted table the lookup finds the smallest class that is at least `s`. -/
theorem size_class_smallest {classes : List Nat} {s c : Nat}
    (hsorted : classes.Sorted (fun a b => a ≤ b)) (h : size_class classes s = some c) :
    c ∈ classes ∧ s ≤ c ∧ ∀ d ∈ classes, s ≤ d → c ≤ d := by
  induction classes with
  | nil => simp [size_class] at h
  | cons a l ih =>
    have hs := List.sorted_cons.1 hsorted
    by_cases ha : s ≤ a
    · have hc : a = c := by simpa [size_class, List.find?, ha] using h
      subst hc
      refine ⟨List.mem_cons_self _ _, ha, fun d hd _ => ?_⟩
      rcases List.mem_cons.1 hd with rfl | hm
      · exact le_rfl
      · exact hs.1 d hm
    · have h2 : size_class l s = some c := by simpa [size_class, List.find?, ha] using h
      obtain ⟨i1, i2, i3⟩ := ih hs.2 h2
      refine ⟨List.mem_cons_of_mem _ i1, i2, fun d hd hsd => ?_⟩
      rcases List.mem_cons.1 hd with rfl | hm
      · exact absurd hsd ha
      · exact i3 d hm hsd

theorem size_class_isSome {classes : List Nat} {s d : Nat} (hd : d ∈ classes) (hs : s ≤ d) :
    ∃ c, size_class classes s = some c := by
  cases h : size_class classes s with
  | some c => exact ⟨c, rfl⟩
  | none =>
    have := List.find?_eq_none.1 h d hd
    simp at this
    omega

theorem ptr_size_record (w : Nat) (k : Kmem) (p : Nat) (o : Owner) :
    ikmem_ptr_size w (record_owner k p o) p =
      (match o with
      | Owner.cache c => c
      | Owner.large n => n) % 2 ^ w := by
  cases o <;> simp [ikmem_ptr_size, record_owner]

/-- C6: in a facade initialised by `ikmem_init` with a page size that fits the `w`-bit
`unsigned long`, for every request size `s` with `1 ≤ s ≤` the largest size class, when
the cache serving the request hands out an object, `ikmem_malloc(s)` returns a pointer
`p`, the object of the cache of a class `c`, for which `ikmem_ptr_size(p) = c`, `c ≥ s`,
and `c` is the smallest size class with `obj_size ≥ s`; with the default classes
`ikmem_malloc(24)` gives `ikmem_ptr_size(p) == 32`. -/
theorem ikmem_malloc_size_class (w : Nat) (k : Kmem) (m : Supply) (s page_shift : Nat)
    (pg_malloc : Int) (sz : Option (List Nat)) (hshift : page_shift < w)
    (hP : k.page_size = (ikmem_init page_shift pg_malloc sz).page_size)
    (hk : k.classes = (ikmem_init page_shift pg_malloc sz).classes)
    (h1 : 1 ≤ s) (h2 : s ≤ largest_class k.classes)
    (hmem : ∀ c, size_class k.classes s = some c → m.cache_alloc c ≠ 0) :
    ∃ c, size_class k.classes s = some c ∧
      (ikmem_malloc w k m s).1 = m.cache_alloc c ∧ (ikmem_malloc w k m s).1 ≠ 0 ∧
      ikmem_ptr_size w (ikmem_malloc w k m s).2 (ikmem_malloc w k m s).1 = c ∧
      s ≤ ikmem_ptr_size w (ikmem_malloc w k m s).2 (ikmem_malloc w k m s).1 ∧
      c ∈ k.classes ∧ s ≤ c ∧ (∀ d ∈ k.classes, s ≤ d → c ≤ d) ∧
      (sz = none → s = 24 → c = 32) := by
  have hsorted : k.classes.Sorted (fun a b => a ≤ b) := by
    rw [hk]; exact ikmem_init_sorted _ _ _
  have hPs : k.page_size = 1 <<< page_shift := hP
  have hhalf : ∀ d ∈ k.classes, d < k.page_size / 2 := by
    intro d hd
    rw [hk] at hd
    rw [hPs]
    exact ((ikmem_init_mem _ _ _ d).1 hd).2
  have hmax : largest_class k.classes ∈ k.classes := largest_class_mem (by omega)
  obtain ⟨c, hc⟩ := size_class_isSome hmax h2
  obtain ⟨c1, c2, c3⟩ := size_class_smallest hsorted hc
  have hp := hmem c hc
  have hsmall : ¬ (largest_class k.classes < s ∨ k.page_size / 2 ≤ s) := by
    have := hhalf _ hmax
    omega
  have hcw : c < 2 ^ w := by
    have hc4 := hhalf c c1
    have hpow : 2 ^ page_shift < 2 ^ w := Nat.pow_lt_pow_right (by decide) hshift
    rw [hPs, Nat.one_shiftLeft] at hc4
    omega
  have hres : ikmem_malloc w k m s =
      (m.cache_alloc c, record_owner k (m.cache_alloc c) (Owner.cache c)) := by
    unfold ikmem_malloc
    rw [if_neg hsmall, hc]
    simp only [if_neg hp]
  have hsize : ikmem_ptr_size w (ikmem_malloc w k m s).2 (ikmem_malloc w k m s).1 = c := by
    rw [hres, ptr_size_record]
    exact Nat.mod_eq_of_lt hcw
  refine ⟨c, hc, by rw [hres], by rw [hres]; exact hp, hsize, by rw [hsize]; exact c2,
    c1, c2, c3, ?_⟩
  rintro rfl rfl
  have hcd : c ∈ default_sizes ∧ c < (1 <<< page_shift) / 2 := by
    rw [hk] at c1
    exact (ikmem_init_mem _ _ _ c).1 c1
  have hge : 32 ≤ c := by
    have hall : ∀ d ∈ default_sizes, 24 ≤ d → 32 ≤ d := by decide
    exact hall c hcd.1 c2
  have h32 : 32 ∈ k.classes := by
    rw [hk]
    exact (ikmem_init_mem _ _ _ 32).2 ⟨by decide, by omega⟩
  have hle := c3 32 h32 (by decide)
  omega

theorem ikmem_malloc_size_class_witness :
    (16 < 64 ∧ 1 ≤ 24 ∧ 24 ≤ largest_class (ikmem_init 16 1 none).classes) ∧
    (ikmem_malloc 64 (ikmem_init 16 1 none) supply_one_class 24).1 = 2097216 ∧
    ikmem_ptr_size 64 (ikmem_malloc 64 (ikmem_init 16 1 none) supply_one_class 24).2
      (ikmem_malloc 64 (ikmem_init 16 1 none) supply_one_class 24).1 = 32 := by
  obtain ⟨c, hc, hptr, _, h3, _, _, _, _, h8⟩ :=
    ikmem_malloc_size_class 64 (ikmem_init 16 1 none) supply_one_class 24 16 1 none
      (by decide) rfl rfl (by decide) (by decide)
      (fun c hc => by
        have h32 : size_class (ikmem_init 16 1 none).classes 24 = some 32 := by decide
        rw [h32] at hc
        rw [← Option.some.inj hc]
        decide)
  have hc32 : c = 32 := h8 rfl rfl
  refine ⟨by decide, ?_, by rw [h3]; exact hc32⟩
  rw [hptr, hc32]
  rfl

/-- Above `2^w - 8` the sum wraps and every bit the mask keeps is zero. -/
theorem IMROUNDUP_wrap_zero (w s : Nat) (hw : 3 ≤ w) (h1 : 2 ^ w < s + 8) (h2 : s < 2 ^ w) :
    IMROUNDUP w s = 0 := by
  have hn := eight_le_two_pow w hw
  have hsum : toULong w ((toULong w ((s : Int) + 8) : Int) - 1) = s + 7 - 2 ^ w := by
    unfold toULong
    generalize 2 ^ w = P at hn h1 h2 ⊢
    have e1 : ((s : Int) + 8) % (P : Int) = (s : Int) + 8 - P := by
      have e0 : ((s : Int) + 8 - P + P) % (P : Int) = (s : Int) + 8 - P := by
        rw [Int.add_emod_self, Int.emod_eq_of_lt (by omega) (by omega)]
      rwa [sub_add_cancel] at e0
    rw [e1]
    have e2 : ((((s : Int) + 8 - P).toNat : Int) - 1) = (s : Int) + 7 - P := by omega
    rw [e2, Int.emod_eq_of_lt (by omega) (by omega)]
    omega
  unfold IMROUNDUP
  rw [toULong_mask w hw, IMROUNDSIZE_eq, hsum, land_mask w _ (by omega) hw]
  omega

/-- C14: with `w`-bit unsigned arithmetic, for a size `s < 2^w` the bound
`IMROUNDUP(s) >= s` holds if and only if `s <= 2^w - 8`; for every `s` with
`2^w - 8 < s < 2^w` the addition `s + 7` wraps (`s + 7 >= 2^w`) and `IMROUNDUP(s)`
evaluates to 0.  The difference `2^w - 8` is a natural number, cut off at 0 for widths
below 3 bits. -/
theorem IMROUNDUP_bound_iff (w s : Nat) (hs : s < 2 ^ w) :
    (s ≤ IMROUNDUP w s ↔ s ≤ 2 ^ w - 8) ∧
    (2 ^ w - 8 < s → 2 ^ w ≤ s + 7 ∧ IMROUNDUP w s = 0) := by
  rcases Nat.lt_or_ge w 3 with hw | hw
  · have hle : 2 ^ w ≤ 2 ^ 2 := Nat.pow_le_pow_right (by decide) (by omega)
    have hs4 : s < 4 := by omega
    interval_cases w <;> interval_cases s <;> decide
  · have hn := eight_le_two_pow w hw
    have hzero : 2 ^ w - 8 < s → IMROUNDUP w s = 0 := fun h =>
      IMROUNDUP_wrap_zero w s hw (by omega) hs
    refine ⟨⟨fun h => ?_, fun h => ?_⟩, fun h => ⟨by omega, hzero h⟩⟩
    · by_contra hc
      have := hzero (by omega)
      omega
    · rw [IMROUNDUP_eq_of_le w s h]
      omega

theorem IMROUNDUP_bound_iff_witness :
    (2 ^ 64 - 3 : Nat) < 2 ^ 64 ∧ IMROUNDUP 64 (2 ^ 64 - 3) = 0 ∧
    ¬ (2 ^ 64 - 3 : Nat) ≤ IMROUNDUP 64 (2 ^ 64 - 3) := by
  have hs : (2 ^ 64 - 3 : Nat) < 2 ^ 64 := by norm_num
  have h := IMROUNDUP_bound_iff 64 (2 ^ 64 - 3) hs
  have hgt : (2 ^ 64 - 8 : Nat) < 2 ^ 64 - 3 := by norm_num
  refine ⟨hs, (h.2 hgt).2, fun hle => ?_⟩
  have := h.1.1 hle
  omega

/-! ### Queue: traversal -/

/-- Along a path that reaches the head for the first time at its end, the loop runs the
body on each node of the path in order and stops at the head. -/
theorem foreach_entry_loop_path {σ : Type} {st : Heap} {h : Nat} (body : Nat → σ → σ) :
    ∀ {l : List Nat} {a : Nat} (fuel : Nat) (s : σ), nextPath st a l h → h ∉ l →
      l.length < fuel →
      foreach_entry_loop st h body fuel (st a).next s =
        some (l.foldl (fun acc x => body x acc) s)
  | [], a, fuel, s, hp, _, hf => by
    obtain ⟨f, rfl⟩ : ∃ f, fuel = f + 1 := ⟨fuel - 1, by simp at hf; omega⟩
    have hp0 : (st a).next = h := hp
    simp [foreach_entry_loop, hp0]
  | b :: l, a, fuel, s, hp, hn, hf => by
    obtain ⟨f, rfl⟩ : ∃ f, fuel = f + 1 := ⟨fuel - 1, by simp at hf; omega⟩
    have hb : b ≠ h := fun e => hn (by rw [e]; exact List.mem_cons_self _ _)
    have hl : h ∉ l := fun hm => hn (List.mem_cons_of_mem _ hm)
    have hlen : l.length < f := by simp at hf; omega
    rw [hp.1]
    simp only [foreach_entry_loop, if_neg hb, List.foldl_cons]
    exact foreach_entry_loop_path body f (body b s) hp.2 hl hlen

/-- With too little fuel the loop does not finish: the path needs one test per node and one
more at the head. -/
theorem foreach_entry_loop_short {σ : Type} {st : Heap} {h : Nat} (body : Nat → σ → σ) :
    ∀ {l : List Nat} {a : Nat} (fuel : Nat) (s : σ), nextPath st a l h → h ∉ l →
      fuel ≤ l.length → foreach_entry_loop st h body fuel (st a).next s = none
  | [], a, fuel, s, _, _, hf => by
    have : fuel = 0 := by simpa using hf
    subst this
    rfl
  | b :: l, a, fuel, s, hp, hn, hf => by
    cases fuel with
    | zero => rfl
    | succ f =>
      have hb : b ≠ h := fun e => hn (by rw [e]; exact List.mem_cons_self _ _)
      have hl : h ∉ l := fun hm => hn (List.mem_cons_of_mem _ hm)
      have hlen : f ≤ l.length := by simp at hf; omega
      rw [hp.1]
      simp only [foreach_entry_loop, if_neg hb]
      exact foreach_entry_loop_short body f (body b s) hp.2 hl hlen

/-- The loop of `IQUEUE_FOREACH` is the loop over the links, the body receiving the
enclosing structure of each link. -/
theorem FOREACH_loop_eq {σ : Type} (st : Heap) (h off : Nat) (body : Int → σ → σ) :
    ∀ (fuel pos : Nat) (s : σ),
      FOREACH_loop st h off body fuel (IQUEUE_ENTRY pos off) s =
        foreach_entry_loop st h (fun x acc => body ((x : Int) - (off : Int)) acc) fuel pos s
  | 0, _, _ => rfl
  | fuel + 1, pos, s => by
    have hm : memberAddr (IQUEUE_ENTRY pos off) off = (pos : Int) := by
      simp [memberAddr, IQUEUE_ENTRY, ICONTAINEROF]
    simp only [FOREACH_loop, foreach_entry_loop, hm, Int.toNat_ofNat, Nat.cast_inj]
    split_ifs with hc
    · rfl
    · have ih := FOREACH_loop_eq st h off body fuel (st pos).next
        (body (IQUEUE_ENTRY pos off) s)
      rw [ih]
      rfl

theorem foreach_entry_eq {σ : Type} {st : Heap} {h : Nat} {l : List Nat}
    (hl : wellFormed st h l) (body : Nat → σ → σ) (fuel : Nat) (s : σ)
    (hf : l.length < fuel) :
    iqueue_foreach_entry st h body fuel s = some (l.foldl (fun acc x => body x acc) s) :=
  foreach_entry_loop_path body fuel s hl.2.1 hl.1 hf

theorem foldl_snoc_trace {α : Type} (l t : List α) :
    l.foldl (fun acc x => acc ++ [x]) t = t ++ l := by
  induction l generalizing t with
  | nil => simp
  | cons a l ih => simp [ih]

theorem foldl_count {α : Type} (l : List α) (c : Nat) :
    l.foldl (fun acc _ => acc + 1) c = c + l.length := by
  induction l generalizing c with
  | nil => simp
  | cons a l ih => simp [ih]; omega

/-- C13: for every well-formed list with head `h` holding `a1..ak` in next-order and every
loop body that modifies no link, `iqueue_foreach_entry(pos, h)` and
`IQUEUE_FOREACH(it, h, TYPE, MEMBER)` terminate after exactly `k` iterations (they finish
with fuel for more than `k` loop tests and with no less) and run the body on `a1, ..., ak`
in that order, each exactly once (the `ai` are pairwise different), `IQUEUE_FOREACH`
handing the body the enclosing structure of each link, the link address minus the member
offset. -/
theorem foreach_visits_in_order (st : Heap) (h : Nat) (l : List Nat) (off : Nat)
    (hl : wellFormed st h l) :
    (∀ (σ : Type) (body : Nat → σ → σ) (s : σ) (fuel : Nat),
      (l.length < fuel →
        iqueue_foreach_entry st h body fuel s = some (l.foldl (fun acc x => body x acc) s)) ∧
      (fuel ≤ l.length → iqueue_foreach_entry st h body fuel s = none)) ∧
    (∀ (σ : Type) (body : Int → σ → σ) (s : σ) (fuel : Nat),
      (l.length < fuel →
        IQUEUE_FOREACH st h off body fuel s =
          some ((l.map (fun (x : Nat) => IQUEUE_ENTRY x off)).foldl (fun acc x => body x acc) s)) ∧
      (fuel ≤ l.length → IQUEUE_FOREACH st h off body fuel s = none)) ∧
    l.Nodup ∧
    (∀ fuel, l.length < fuel →
      iqueue_foreach_entry st h (fun x acc => acc ++ [x]) fuel [] = some l ∧
      iqueue_foreach_entry st h (fun _ c => c + 1) fuel 0 = some l.length ∧
      IQUEUE_FOREACH st h off (fun x acc => acc ++ [x]) fuel [] =
        some (l.map (fun (x : Nat) => (x : Int) - (off : Int))) ∧
      IQUEUE_FOREACH st h off (fun _ c => c + 1) fuel 0 = some l.length) := by
  have hentry : ∀ (σ : Type) (body : Nat → σ → σ) (s : σ) (fuel : Nat),
      (l.length < fuel →
        iqueue_foreach_entry st h body fuel s = some (l.foldl (fun acc x => body x acc) s)) ∧
      (fuel ≤ l.length → iqueue_foreach_entry st h body fuel s = none) :=
    fun σ body s fuel =>
      ⟨fun hf => foreach_entry_loop_path body fuel s hl.2.1 hl.1 hf,
        fun hf => foreach_entry_loop_short body fuel s hl.2.1 hl.1 hf⟩
  have hall : ∀ (σ : Type) (body : Int → σ → σ) (s : σ) (fuel : Nat),
      (l.length < fuel →
        IQUEUE_FOREACH st h off body fuel s =
          some ((l.map (fun (x : Nat) => IQUEUE_ENTRY x off)).foldl (fun acc x => body x acc) s)) ∧
      (fuel ≤ l.length → IQUEUE_FOREACH st h off body fuel s = none) := by
    intro σ body s fuel
    unfold IQUEUE_FOREACH
    rw [FOREACH_loop_eq]
    refine ⟨fun hf => ?_, fun hf => foreach_entry_loop_short _ fuel s hl.2.1 hl.1 hf⟩
    rw [foreach_entry_loop_path _ fuel s hl.2.1 hl.1 hf, List.foldl_map]
    rfl
  refine ⟨hentry, hall, nextPath_nodup hl.2.1 hl.1, fun fuel hf => ⟨?_, ?_, ?_, ?_⟩⟩
  · rw [(hentry _ _ _ fuel).1 hf, foldl_snoc_trace]
    rfl
  · rw [(hentry _ _ _ fuel).1 hf, foldl_count]
    simp
  · rw [(hall _ _ _ fuel).1 hf, foldl_snoc_trace]
    rfl
  · rw [(hall _ _ _ fuel).1 hf, foldl_count]
    simp

theorem foreach_visits_in_order_witness :
    wellFormed heap_example 1 [11, 12] ∧
    iqueue_foreach_entry heap_example 1 (fun x acc => acc ++ [x]) 3 [] = some [11, 12] ∧
    iqueue_foreach_entry heap_example 1 (fun _ c => c + 1) 3 0 = some 2 ∧
    IQUEUE_FOREACH heap_example 1 8 (fun x acc => acc ++ [x]) 3 [] = some [3, 4] := by
  have h := foreach_visits_in_order heap_example 1 [11, 12] 8 (by decide)
  have h3 := h.2.2.2 3 (by decide)
  exact ⟨by decide, h3.1, h3.2.1, h3.2.2.1⟩

/-! ### Queue: insertion order and emptiness -/

theorem ADD_TAIL_other (st : Heap) (n h x : Nat) (hnh : n ≠ h) (h1 : x ≠ n) (h2 : x ≠ h)
    (h3 : x ≠ (st h).prev) : (IQUEUE_ADD_TAIL st n h) x = st x :=
  IQUEUEHEAD_eq (by rw [ADD_TAIL_next st n h x hnh, if_neg h3, if_neg h1])
    (by rw [ADD_TAIL_prev st n h x hnh, if_neg h2, if_neg h1])

/-- The `prev` link of the end of a segment is the last node before the end. -/
theorem linked_prev_getLast {st : Heap} : ∀ {a : Nat} {l : List Nat} {h : Nat},
    linked st a l h → (st h).prev = (a :: l).getLast (List.cons_ne_nil _ _)
  | a, [], h, hl => hl.2
  | a, b :: l, h, hl => by
    rw [List.getLast_cons (List.cons_ne_nil _ _)]
    exact linked_prev_getLast hl.2.2

theorem isEmpty_iff_of_isList {st : Heap} {h : Nat} {l : List Nat} (hl : isList st h l) :
    IQUEUE_IS_EMPTY st h = true ↔ l = [] := by
  cases l with
  | nil =>
    have hnext : (st h).next = h := hl.2.1
    simp [IQUEUE_IS_EMPTY, hnext]
  | cons b l =>
    have hnext : (st h).next = b := hl.2.1
    have hb : h ≠ b := fun e =>
      (List.nodup_cons.1 hl.1).1 (by rw [e]; exact List.mem_cons_self _ _)
    simp [IQUEUE_IS_EMPTY, hnext, hb]

theorem insertAll_isList {h : Nat} : ∀ (ins : List Insertion) {st : Heap} {l : List Nat},
    isList st h l → (ins.map Insertion.node).Nodup →
    (∀ x ∈ ins.map Insertion.node, x ∉ h :: l) →
    isList (insertAll st h ins) h (insertedList l ins)
  | [], _, _, hl, _, _ => hl
  | i :: ins, st, l, hl, hnd, hnew => by
    rw [List.map_cons, List.nodup_cons] at hnd
    have hi : i.node ∉ h :: l := hnew _ (by simp)
    have hrest : ∀ x ∈ ins.map Insertion.node, x ∉ h :: l :=
      fun x hx => hnew x (by rw [List.map_cons]; exact List.mem_cons_of_mem _ hx)
    cases i with
    | add n =>
      show isList (insertAll (IQUEUE_ADD st n h) h ins) h (insertedList (n :: l) ins)
      refine insertAll_isList ins (isList_ADD hl hi) hnd.2 (fun x hx hm => ?_)
      rcases List.mem_cons.1 hm with e | hm
      · exact hrest x hx (by rw [e]; exact List.mem_cons_self _ _)
      · rcases List.mem_cons.1 hm with e | hm
        · exact hnd.1 (by rw [e] at hx; exact hx)
        · exact hrest x hx (List.mem_cons_of_mem _ hm)
    | add_tail n =>
      show isList (insertAll (IQUEUE_ADD_TAIL st n h) h ins) h (insertedList (l ++ [n]) ins)
      refine insertAll_isList ins (isList_ADD_TAIL hl hi) hnd.2 (fun x hx hm => ?_)
      rcases List.mem_cons.1 hm with e | hm
      · exact hrest x hx (by rw [e]; exact List.mem_cons_self _ _)
      · rcases List.mem_append.1 hm with hm | hm
        · exact hrest x hx (List.mem_cons_of_mem _ hm)
        · rw [List.mem_singleton] at hm
          exact hnd.1 (by rw [hm] at hx; exact hx)

theorem insertedList_perm : ∀ (ins : List Insertion) (l : List Nat),
    (insertedList l ins).Perm (l ++ ins.map Insertion.node)
  | [], l => by simp [insertedList]
  | i :: ins, l => by
    cases i with
    | add n =>
      show (insertedList (n :: l) ins).Perm (l ++ n :: ins.map Insertion.node)
      exact (insertedList_perm ins (n :: l)).trans List.perm_middle.symm
    | add_tail n =>
      show (insertedList (l ++ [n]) ins).Perm (l ++ n :: ins.map Insertion.node)
      refine (insertedList_perm ins (l ++ [n])).trans ?_
      rw [List.append_assoc]
      rfl

theorem insertedList_add_tail : ∀ (ns l : List Nat),
    insertedList l (ns.map Insertion.add_tail) = l ++ ns
  | [], l => by simp [insertedList]
  | n :: ns, l => by
    show insertedList (l ++ [n]) (ns.map Insertion.add_tail) = l ++ n :: ns
    rw [insertedList_add_tail ns (l ++ [n]), List.append_assoc]
    rfl

theorem deleteAll_isList {h : Nat} : ∀ (es : List Nat) {st : Heap} {l : List Nat},
    isList st h l → es.Perm l → isList (deleteAll st es) h []
  | [], st, l, hl, hp => by
    have : l = [] := (List.Perm.nil_eq hp).symm
    subst this
    exact hl
  | e :: es, st, l, hl, hp => by
    have he : e ∈ l := hp.subset (List.mem_cons_self _ _)
    have hp2 : es.Perm (l.erase e) := by
      have := hp.erase e
      rwa [List.erase_cons_head] at this
    show isList (deleteAll (IQUEUE_DEL st e) es) h []
    exact deleteAll_isList es (isList_DEL hl he) hp2

/-- C11: for every well-formed list with head `h` holding `a1..ak` and every node `n` not on
it, `IQUEUE_ADD_TAIL(n, h)` yields the list `a1..ak, n` with `h->prev == n` and changes no
link of a node other than `h`, `n` and the old last element (`h->prev` before the call);
so nodes inserted only with `IQUEUE_ADD_TAIL` into an initialised list are traversed from
`h->next` in insertion order. -/
theorem add_tail_appends :
    (∀ (st : Heap) (h n : Nat) (l : List Nat), wellFormed st h l → n ∉ h :: l →
      wellFormed (IQUEUE_ADD_TAIL st n h) h (l ++ [n]) ∧
      ((IQUEUE_ADD_TAIL st n h) h).prev = n ∧
      (st h).prev = (h :: l).getLast (List.cons_ne_nil _ _) ∧
      ∀ x, x ≠ h → x ≠ n → x ≠ (st h).prev → (IQUEUE_ADD_TAIL st n h) x = st x) ∧
    (∀ (st : Heap) (h : Nat) (ns : List Nat), (h :: ns).Nodup →
      wellFormed (insertAll (IQUEUE_INIT st h) h (ns.map Insertion.add_tail)) h ns ∧
      ∀ fuel, ns.length < fuel →
        iqueue_foreach_entry (insertAll (IQUEUE_INIT st h) h (ns.map Insertion.add_tail)) h
          (fun x acc => acc ++ [x]) fuel [] = some ns) := by
  constructor
  · intro st h n l hW hn
    have hl := wellFormed_iff_isList.1 hW
    have hnh : n ≠ h := fun e => hn (by rw [e]; exact List.mem_cons_self _ _)
    refine ⟨wellFormed_iff_isList.2 (isList_ADD_TAIL hl hn), ?_, linked_prev_getLast hl.2,
      fun x h1 h2 h3 => ADD_TAIL_other st n h x hnh h2 h1 h3⟩
    rw [ADD_TAIL_prev st n h h hnh, if_pos rfl]
  · intro st h ns hnd
    have hmap : (ns.map Insertion.add_tail).map Insertion.node = ns := by
      rw [List.map_map]
      exact List.map_id _
    have hl := insertAll_isList (ns.map Insertion.add_tail) (isList_INIT st h)
      (by rw [hmap]; exact (List.nodup_cons.1 hnd).2)
      (fun x hx hm => by
        rw [hmap] at hx
        rw [List.mem_singleton] at hm
        exact (List.nodup_cons.1 hnd).1 (by rw [← hm]; exact hx))
    rw [insertedList_add_tail, List.nil_append] at hl
    have hW := wellFormed_iff_isList.2 hl
    refine ⟨hW, fun fuel hf => ?_⟩
    rw [foreach_entry_eq hW _ fuel [] hf, foldl_snoc_trace]
    rfl

theorem add_tail_appends_witness :
    wellFormed heap_example 1 [11, 12] ∧
    wellFormed (IQUEUE_ADD_TAIL heap_example 30 1) 1 [11, 12, 30] ∧
    ((IQUEUE_ADD_TAIL heap_example 30 1) 1).prev = 30 ∧
    iqueue_foreach_entry
      (insertAll (IQUEUE_INIT heap_example 5) 5 ([6, 7, 8].map Insertion.add_tail)) 5
      (fun x acc => acc ++ [x]) 4 [] = some [6, 7, 8] := by
  have hA := add_tail_appends.1 heap_example 1 30 [11, 12] (by decide) (by decide)
  have hB := add_tail_appends.2 heap_example 5 [6, 7, 8] (by decide)
  exact ⟨by decide, hA.1, hA.2.1, hB.2 4 (by decide)⟩

/-- C12: for every well-formed circular list with head `h`, `IQUEUE_IS_EMPTY(h)` holds if
and only if the list has no elements: it holds right after `IQUEUE_INIT(h)`, does not
hold after `IQUEUE_ADD(n, h)` or `IQUEUE_ADD_TAIL(n, h)`, and holds again once every
added node has been removed with `IQUEUE_DEL`, in whatever order. -/
theorem is_empty_iff_no_elements :
    (∀ (st : Heap) (h : Nat) (l : List Nat), wellFormed st h l →
      (IQUEUE_IS_EMPTY st h = true ↔ l = [])) ∧
    (∀ (st : Heap) (h : Nat), IQUEUE_IS_EMPTY (IQUEUE_INIT st h) h = true) ∧
    (∀ (st : Heap) (h n : Nat) (l : List Nat), wellFormed st h l → n ∉ h :: l →
      IQUEUE_IS_EMPTY (IQUEUE_ADD st n h) h = false ∧
      IQUEUE_IS_EMPTY (IQUEUE_ADD_TAIL st n h) h = false) ∧
    (∀ (st : Heap) (h : Nat) (ins : List Insertion) (es : List Nat),
      (h :: ins.map Insertion.node).Nodup → es.Perm (ins.map Insertion.node) →
      (ins ≠ [] → IQUEUE_IS_EMPTY (insertAll (IQUEUE_INIT st h) h ins) h = false) ∧
      IQUEUE_IS_EMPTY (deleteAll (insertAll (IQUEUE_INIT st h) h ins) es) h = true) ∧
    (∀ (st : Heap) (h : Nat) (l es : List Nat), wellFormed st h l → es.Perm l →
      IQUEUE_IS_EMPTY (deleteAll st es) h = true) := by
  refine ⟨fun st h l hW => isEmpty_iff_of_isList (wellFormed_iff_isList.1 hW),
    fun st h => (isEmpty_iff_of_isList (isList_INIT st h)).2 rfl, ?_, ?_, ?_⟩
  · intro st h n l hW hn
    have hl := wellFormed_iff_isList.1 hW
    have h1 := isEmpty_iff_of_isList (isList_ADD hl hn)
    have h2 := isEmpty_iff_of_isList (isList_ADD_TAIL hl hn)
    constructor
    · cases hb : IQUEUE_IS_EMPTY (IQUEUE_ADD st n h) h with
      | false => rfl
      | true => exact absurd (h1.1 hb) (List.cons_ne_nil _ _)
    · cases hb : IQUEUE_IS_EMPTY (IQUEUE_ADD_TAIL st n h) h with
      | false => rfl
      | true => exact absurd (h2.1 hb) (by simp)
  · intro st h ins es hnd hp
    have hl := insertAll_isList ins (isList_INIT st h) (List.nodup_cons.1 hnd).2
      (fun x hx hm => by
        rw [List.mem_singleton] at hm
        exact (List.nodup_cons.1 hnd).1 (by rw [← hm]; exact hx))
    have hperm : es.Perm (insertedList [] ins) :=
      hp.trans (by simpa using (insertedList_perm ins []).symm)
    refine ⟨fun hne => ?_, (isEmpty_iff_of_isList (deleteAll_isList es hl hperm)).2 rfl⟩
    cases hb : IQUEUE_IS_EMPTY (insertAll (IQUEUE_INIT st h) h ins) h with
    | false => rfl
    | true =>
      have hnil := (isEmpty_iff_of_isList hl).1 hb
      have hlen := (insertedList_perm ins []).length_eq
      rw [hnil] at hlen
      simp only [List.length_nil, List.nil_append, List.length_map] at hlen
      exact absurd (List.length_eq_zero.1 hlen.symm) hne
  · intro st h l es hW hp
    exact (isEmpty_iff_of_isList (deleteAll_isList es (wellFormed_iff_isList.1 hW) hp)).2 rfl

theorem is_empty_iff_no_elements_witness :
    wellFormed heap_example 1 [11, 12] ∧
    IQUEUE_IS_EMPTY heap_example 1 = false ∧
    IQUEUE_IS_EMPTY (IQUEUE_ADD heap_example 30 1) 1 = false ∧
    IQUEUE_IS_EMPTY (deleteAll heap_example [12, 11]) 1 = true ∧
    IQUEUE_IS_EMPTY (deleteAll (insertAll (IQUEUE_INIT heap_example 5) 5
      [Insertion.add 6, Insertion.add_tail 7, Insertion.add 8]) [7, 8, 6]) 5 = true := by
  have hW : wellFormed heap_example 1 [11, 12] := by decide
  have h1 := is_empty_iff_no_elements.1 heap_example 1 [11, 12] hW
  have h3 := is_empty_iff_no_elements.2.2.1 heap_example 1 30 [11, 12] hW (by decide)
  have h4 := is_empty_iff_no_elements.2.2.2.1 heap_example 5
    [Insertion.add 6, Insertion.add_tail 7, Insertion.add 8] [7, 8, 6] (by decide)
    (by decide)
  have h5 := is_empty_iff_no_elements.2.2.2.2 heap_example 1 [11, 12] [12, 11] hW (by decide)
  refine ⟨hW, ?_, h3.1, h5, h4.2⟩
  cases hb : IQUEUE_IS_EMPTY heap_example 1 with
  | false => rfl
  | true => exact absurd (h1.1 hb) (by decide)


end Memslab
